import Mathlib

/-!
# ios-csv: conversion between a delimited table and per-language bundles

A shallow embedding of `processor.go` (package `main` of `emmanuelay/ios-csv`)
and theorems about it.

Modelling conventions.

* A Go `string` is a `Str`, the list of its Unicode code points, so the
  development speaks about valid UTF-8 text. On such text the byte-wise
  operations of package `strings` (search, split, trim by an ASCII cutset) and
  the byte-wise comparison `<` agree with the code-point-wise ones below.
* A file that is read is given by the tokens its `bufio.Scanner` yields (its
  lines); the size limit of the scanner buffer is not modelled. Text that is
  written is the string of everything printed to the writer. `scanLines` turns
  written text back into the tokens a scanner yields for it.
* A Go `map[string]V` is an association list read with `mapGet` and updated with
  `mapSet`; `range` visits the entries in the order of the list, which stands
  for the unspecified iteration order.
* `filepath.Walk` is given by the list of the entries on which the callback does
  its work (the `.csv` files, the `.lproj` directories), in the order of the
  walk; the entries the callback skips and errors of the walk itself are left
  out. A file that cannot be opened and a scanner that ends with an error are
  part of the model.
* A call ends by returning `nil`, by returning an error, or by a run-time panic
  (index or slice bound out of range); see `Exit`.
-/

namespace IosCsv

/-- A Go string: the sequence of its code points. -/
abbrev Str := List Char

/-! ## Package `strings` -/

/-- `strings.HasPrefix(s, p)`. -/
def HasPrefix (s p : Str) : Bool := p.isPrefixOf s

/-- `strings.HasSuffix(s, p)`. -/
def HasSuffix (s p : Str) : Bool := p.isSuffixOf s

/-- The slices `s[:m]` and `s[m+len(sep):]` at `m = strings.Index(s, sep)`, the
first position where `sep` occurs in `s`; `none` when `Index` returns `-1`. -/
def cutFirst (sep : Str) : Str → Option (Str × Str)
  | [] => if sep = [] then some ([], []) else none
  | c :: s =>
    if HasPrefix (c :: s) sep then some ([], (c :: s).drop sep.length)
    else
      match cutFirst sep s with
      | none => none
      | some (a, b) => some (c :: a, b)

/-- The loop of `strings.genSplit` for a non-empty separator: cut at the first
occurrence at most `k` times, the rest is the last piece. -/
def splitLoop (sep : Str) : Nat → Str → List Str
  | 0, s => [s]
  | k + 1, s =>
    match cutFirst sep s with
    | none => [s]
    | some (a, rest) => a :: splitLoop sep k rest

/-- `strings.Split(s, sep)`: with an empty separator the string is exploded into
its characters; otherwise it is cut at every occurrence of `sep`, found from left
to right (`len(s)` cuts are never exceeded, see `splitLoop_fuel`). -/
def Split (s sep : Str) : List Str :=
  if sep = [] then s.map (fun c => [c]) else splitLoop sep s.length s

/-- `strings.SplitN(s, sep, 2)` for a non-empty separator: at most one cut. -/
def SplitN2 (s sep : Str) : List Str := splitLoop sep 1 s

/-- `strings.Join(elems, sep)`. -/
def Join (elems : List Str) (sep : Str) : Str := sep.intercalate elems

/-- `strings.ReplaceAll(s, old, new)`. -/
def ReplaceAll (s old new : Str) : Str :=
  if old = [] then new ++ s.flatMap (fun c => c :: new) else Join (Split s old) new

/-- `unicode.IsSpace`. -/
def isSpace (c : Char) : Bool :=
  let n := c.toNat
  (decide (9 ≤ n) && decide (n ≤ 13)) || n == 32 || n == 0x85 || n == 0xA0 || n == 0x1680
    || (decide (0x2000 ≤ n) && decide (n ≤ 0x200a)) || n == 0x2028 || n == 0x2029
    || n == 0x202f || n == 0x205f || n == 0x3000

/-- `strings.TrimSpace(s)`: leading and trailing white space removed. -/
def TrimSpace (s : Str) : Str := (s.dropWhile isSpace).rdropWhile isSpace

/-- `strings.Trim(s, cutset)`: every leading and trailing character that is in
`cutset` removed. -/
def Trim (s cutset : Str) : Str :=
  (s.rdropWhile (fun c => cutset.contains c)).dropWhile (fun c => cutset.contains c)

/-- `strings.TrimSuffix(s, suffix)`. -/
def TrimSuffix (s suffix : Str) : Str :=
  if HasSuffix s suffix then s.take (s.length - suffix.length) else s

/-- The comparison `a < b` of two Go strings: lexicographic on the bytes of the
UTF-8 encodings, which is the lexicographic order of the code points. -/
def strLt : Str → Str → Bool
  | _, [] => false
  | [], _ :: _ => true
  | a :: as, b :: bs =>
    if a.toNat < b.toNat then true
    else if b.toNat < a.toNat then false
    else strLt as bs

/-- The comparison `a ≤ b` of two Go strings: not `b < a`. -/
abbrev strLe (a b : Str) : Prop := strLt b a = false

/-- `sort.Strings`: the slice in ascending order. -/
def sortStrings (l : List Str) : List Str :=
  l.insertionSort strLe

/-- `fmt.Fprintln(w, s)`: the text followed by a newline. -/
def Fprintln (s : Str) : Str := s ++ ['\n']

/-! ## `bufio.Scanner` with the default `ScanLines` -/

/-- `dropCR`: one trailing carriage return removed. -/
def dropCR (s : Str) : Str := if HasSuffix s ['\r'] then s.dropLast else s

/-- The pieces of a text between its newlines; the last piece is what follows the
last newline. -/
def splitNL : Str → List Str
  | [] => [[]]
  | c :: s =>
    if c = '\n' then [] :: splitNL s
    else
      match splitNL s with
      | [] => [[c]]
      | l :: ls => (c :: l) :: ls

/-- The tokens a `bufio.Scanner` yields for a text: every newline-terminated
piece and a non-empty unterminated last piece, each without its trailing carriage
return. -/
def scanLines (text : Str) : List Str :=
  let ps := splitNL text
  ((if ps.getLast? = some [] then ps.dropLast else ps).map dropCR)

/-! ## Go maps -/

/-- A `map[string]V`. -/
abbrev GoMap (V : Type) := List (Str × V)

/-- The lookup `v, ok := m[k]`. -/
def mapGet {V : Type} (m : GoMap V) (k : Str) : Option V := m.lookup k

/-- The assignment `m[k] = v`. -/
def mapSet {V : Type} : GoMap V → Str → V → GoMap V
  | [], k, v => [(k, v)]
  | (k', v') :: m, k, v => if k' = k then (k, v) :: m else (k', v') :: mapSet m k v

/-- The keys of a map, in iteration order. -/
def mapKeys {V : Type} (m : GoMap V) : List Str := m.map Prod.fst

/-- A language bundle: key to value. -/
abbrev Bundle := GoMap Str

/-- The value of type `map[string]map[string]string`: language to bundle. -/
abbrev Languages := GoMap Bundle

/-- The expression `languages[lang][key]`: a missing language gives the nil map,
a missing key the empty string. -/
def cell (languages : Languages) (lang key : Str) : Str :=
  ((mapGet ((mapGet languages lang).getD []) key).getD [])

/-! ## Results of calls -/

/-- The errors the program returns. -/
inductive Err
  | io
  | emptyCSV
  deriving DecidableEq, Repr

/-- How a call ends: it returns `nil`, it returns an error, or the run-time
panics on an index or a slice bound out of range. -/
inductive Exit
  | ok
  | error (e : Err)
  | panic
  deriving DecidableEq, Repr

/-! ## Bundles to table: `readLocalizedFiles` and `writeCSV` -/

/-- What is found at `<dir>/Localizable.strings`: nothing (`os.IsNotExist`), a
file that `os.Open` cannot open, or a file with the tokens `ls` of its scanner
and the flag `scanErr` telling that `scanner.Err()` is not nil at the end. -/
inductive StringsFile
  | absent
  | unreadable
  | content (ls : List Str) (scanErr : Bool)

/-- A directory `<lang>.lproj` met by the walk of `readLocalizedFiles`; `lang` is
`strings.TrimSuffix(info.Name(), ".lproj")`. -/
structure BundleDir where
  lang : Str
  strings : StringsFile

/-- The two values `readLocalizedFiles` builds. -/
structure Localized where
  languages : Languages
  languageOrder : List Str

/-- The decision and the extraction in the body of the scanner loop of
`readLocalizedFiles`: `none` when the line is skipped by a `continue`, else the
key and the value that are stored. -/
def parseKV (text : Str) : Option (Str × Str) :=
  let line := TrimSpace text
  if line = [] || HasPrefix line "/*".toList || HasPrefix line "//".toList then none
  else
    match SplitN2 line " = ".toList with
    | [p0, p1] => some (Trim p0 "\"".toList, Trim (TrimSuffix p1 ";".toList) "\"".toList)
    | _ => none

/-- The body of the scanner loop of `readLocalizedFiles`, acting on the map
`languages[lang]`. -/
def parseLine (bundle : Bundle) (text : Str) : Bundle :=
  match parseKV text with
  | none => bundle
  | some (key, value) => mapSet bundle key value

/-- The callback of the walk in `readLocalizedFiles` on a bundle directory. The
language is appended to `languageOrder`, `languages[lang]` is set to a new empty
map, and the lines of the strings file, when there is one, are stored into it. -/
def visitBundle (st : Localized) (e : BundleDir) : Except Err Localized :=
  let languageOrder := st.languageOrder ++ [e.lang]
  let languages := mapSet st.languages e.lang []
  match e.strings with
  | .absent => .ok ⟨languages, languageOrder⟩
  | .unreadable => .error .io
  | .content ls scanErr =>
    if scanErr then .error .io
    else .ok ⟨mapSet languages e.lang (ls.foldl parseLine []), languageOrder⟩

/-- The walk of `readLocalizedFiles` from a given state; it stops at the first
error. -/
def walkBundles : Localized → List BundleDir → Except Err Localized
  | st, [] => .ok st
  | st, e :: es =>
    match visitBundle st e with
    | .error err => .error err
    | .ok st' => walkBundles st' es

/-- `readLocalizedFiles`. -/
def readLocalizedFiles (dirs : List BundleDir) : Except Err Localized :=
  walkBundles ⟨[], []⟩ dirs

/-- The set `keys` that `writeCSV` collects, a `map[string]bool`. -/
def collectKeys (languages : Languages) : GoMap Bool :=
  languages.foldl
    (fun keys langMap => langMap.2.foldl (fun keys kv => mapSet keys kv.1 true) keys) []

/-- The slice `keySlice` of `writeCSV` after `sort.Strings`. -/
def sortedKeys (languages : Languages) : List Str :=
  sortStrings (mapKeys (collectKeys languages))

/-- The slice `row` that `writeCSV` builds for a key. -/
def csvRow (languages : Languages) (languageOrder : List Str) (key : Str) : List Str :=
  key :: languageOrder.map (fun lang => cell languages lang key)

/-- The rows `writeCSV` builds after the header, in the order it writes them. -/
def csvRows (languages : Languages) (languageOrder : List Str) : List (List Str) :=
  (sortedKeys languages).map (csvRow languages languageOrder)

/-- `writeCSV`: the text written to the writer. -/
def writeCSV (delimiter : Str) (languages : Languages) (languageOrder : List Str) : Str :=
  Fprintln (Join ("Key".toList :: languageOrder) delimiter)
    ++ (csvRows languages languageOrder).flatMap (fun row => Fprintln (Join row delimiter))

/-- The data path of `ConvertToCSV`: `readLocalizedFiles`, then `writeCSV` when
it returned no error. -/
def ConvertToCSV (delimiter : Str) (dirs : List BundleDir) : Except Err Str :=
  match readLocalizedFiles dirs with
  | .error err => .error err
  | .ok r => .ok (writeCSV delimiter r.languages r.languageOrder)

/-! ## Table to bundles: `generateIOSKeys` -/

/-- A `.csv` file met by the walks of `generateIOSKeys`: its base name, whether
`os.Open` succeeds, the tokens of its scanner, and whether `scanner.Err()` is not
nil at the end. -/
structure CsvFile where
  name : Str
  readable : Bool
  lines : List Str
  scanErr : Bool

/-- A file handle returned by `os.Create`: its number in order of creation and
the language whose `Localizable.strings` it writes. -/
structure Handle where
  id : Nat
  lang : Str
  deriving DecidableEq, Repr

/-- The text `fmt.Fprintf(w, "\n/* %s */\n", filename)` writes. -/
def marker (filename : Str) : Str := "\n/* ".toList ++ filename ++ " */\n".toList

/-- The text `fmt.Fprintf(w, "\"%s\" = \"%s\";\n", key, value)` writes. -/
def kvLine (key value : Str) : Str :=
  "\"".toList ++ key ++ "\" = \"".toList ++ value ++ "\";\n".toList

/-- The inner loop `for i, w := range allWrites` of `processCSVToIOS`, from index
`i` on: the texts after the loop and `false` when `values[i]` is out of range
(the writers before that one have been written to). -/
def writeRow (key : Str) (values : List Str) : Nat → List Str → List Str × Bool
  | _, [] => ([], true)
  | i, w :: ws =>
    match values.get? i with
    | none => (w :: ws, false)
    | some v =>
      let r := writeRow key values (i + 1) ws
      ((w ++ kvLine key v) :: r.1, r.2)

/-- The body of the scanner loop of `processCSVToIOS` for one line; `false`
when `parts[0]` or `values[i]` is out of range. -/
def processRow (delimiter : Str) (outs : List Str) (line : Str) : List Str × Bool :=
  match Split line delimiter with
  | [] => (outs, false)
  | p0 :: values =>
    let key := ReplaceAll p0 " ".toList []
    if HasPrefix key "//".toList then (outs, true) else writeRow key values 0 outs

/-- The scanner loop of `processCSVToIOS`; it ends at the first panic. -/
def processRows (delimiter : Str) : List Str → List Str → List Str × Bool
  | outs, [] => (outs, true)
  | outs, line :: rest =>
    match processRow delimiter outs line with
    | (outs', true) => processRows delimiter outs' rest
    | (outs', false) => (outs', false)

/-- `processCSVToIOS`: `outs` is the text written so far through each writer of
`allWrites`; the result is the texts afterwards and how the call ends. -/
def processCSVToIOS (delimiter : Str) (file : CsvFile) (outs : List Str) : List Str × Exit :=
  if file.readable then
    match processRows delimiter (outs.map (fun w => w ++ marker file.name)) (file.lines.drop 1) with
    | (outs', true) => (outs', if file.scanErr then .error .io else .ok)
    | (outs', false) => (outs', .panic)
  else (outs, .error .io)

/-- `startLocalizeIOS`: the second walk; it stops at the first file whose
processing does not return `nil`. -/
def startLocalizeIOS (delimiter : Str) : List CsvFile → List Str → List Str × Exit
  | [], outs => (outs, .ok)
  | file :: rest, outs =>
    match processCSVToIOS delimiter file outs with
    | (outs', .ok) => startLocalizeIOS delimiter rest outs'
    | r => r

/-- The result of `setupLanguageFiles`: the handles opened so far, how the call
ends, and the two slices it returns (`nil` on an error). -/
structure Setup where
  opened : List Handle
  exit : Exit
  langKeys : List Str
  allWrites : List Handle

/-- The loop `for _, lang := range langKeys` of `setupLanguageFiles`.
`canCreate lang` tells whether `os.MkdirAll` and `os.Create` succeed for the
language; `acc` is the local slice `allWrites`. -/
def createAll (canCreate : Str → Bool) :
    List Str → List Handle → List Handle → List Handle × Option (List Handle)
  | [], opened, acc => (opened, some acc)
  | lang :: rest, opened, acc =>
    if canCreate lang then
      let h : Handle := ⟨opened.length, lang⟩
      createAll canCreate rest (opened ++ [h]) (acc ++ [h])
    else (opened, none)

/-- `setupLanguageFiles`. -/
def setupLanguageFiles (delimiter : Str) (canCreate : Str → Bool) (opened : List Handle)
    (file : CsvFile) : Setup :=
  if file.readable then
    match file.lines with
    | [] => ⟨opened, .error .emptyCSV, [], []⟩
    | first :: _ =>
      match Split first delimiter with
      | [] => ⟨opened, .panic, [], []⟩
      | _ :: langKeys =>
        match createAll canCreate langKeys opened [] with
        | (opened', none) => ⟨opened', .error .io, [], []⟩
        | (opened', some allWrites) => ⟨opened', .ok, langKeys, allWrites⟩
  else ⟨opened, .error .io, [], []⟩

/-- The first walk of `generateIOSKeys`, from the current values of `langKeys`,
`allWrites` and the handles opened so far. -/
def setupWalk (delimiter : Str) (canCreate : Str → Bool) :
    List CsvFile → List Str → List Handle → List Handle → Setup
  | [], langKeys, allWrites, opened => ⟨opened, .ok, langKeys, allWrites⟩
  | file :: rest, langKeys, allWrites, opened =>
    let s := setupLanguageFiles delimiter canCreate opened file
    match s.exit with
    | .ok =>
      if langKeys.length = 0 then setupWalk delimiter canCreate rest s.langKeys s.allWrites s.opened
      else setupWalk delimiter canCreate rest langKeys allWrites s.opened
    | e => ⟨s.opened, e, langKeys, allWrites⟩

/-- The outcome of a run of `generateIOSKeys`: how it ends, the slice
`allWrites`, the text written through each of its writers, every handle opened
during the run and the handles closed by the deferred function. -/
structure Run where
  exit : Exit
  allWrites : List Handle
  texts : List Str
  opened : List Handle
  closed : List Handle

/-- `generateIOSKeys`. -/
def generateIOSKeys (delimiter : Str) (canCreate : Str → Bool) (files : List CsvFile) : Run :=
  let s := setupWalk delimiter canCreate files [] [] []
  match s.exit with
  | .ok =>
    let r := startLocalizeIOS delimiter files (s.allWrites.map (fun _ => []))
    ⟨r.2, s.allWrites, r.1, s.opened, s.allWrites⟩
  | e => ⟨e, s.allWrites, s.allWrites.map (fun _ => []), s.opened, s.allWrites⟩


/-! ## Data of the repository's tests and of the specification's examples -/

/-- The bundles `TestConvertToCSV` creates: `en` and `sv`, each with `hello` and
`world`. -/
def testBundles : Languages :=
  [("en".toList, [("hello".toList, "Hello".toList), ("world".toList, "World".toList)]),
   ("sv".toList, [("hello".toList, "Hej".toList), ("world".toList, "Världen".toList)])]

/-- The example of a gap: `en` defines `a`, `sv` defines nothing. -/
def gapBundles : Languages :=
  [("en".toList, [("a".toList, "A".toList)]), ("sv".toList, [])]

/-! ## The bundle text, as the specification describes it -/

/-- The key of a data row: its first field with the space characters removed. -/
def rowKey (delimiter row : Str) : Str :=
  ReplaceAll ((Split row delimiter).headD []) " ".toList []

/-- The `i`-th value field of a data row, counting the fields after the first
from zero. -/
def rowValue (delimiter row : Str) (i : Nat) : Str :=
  (Split row delimiter).tail.getD i []

/-- A data row is a comment when its key starts with `//`. -/
def isComment (delimiter row : Str) : Bool :=
  HasPrefix (rowKey delimiter row) "//".toList

/-- The key/value lines of language `i` for a list of data rows: one line per
row that is not a comment, in the order of the rows. -/
def bundleLines (delimiter : Str) (rows : List Str) (i : Nat) : Str :=
  (rows.filter (fun row => !isComment delimiter row)).flatMap
    (fun row => kvLine (rowKey delimiter row) (rowValue delimiter row i))

/-- The block of a file in the output of language `i`: its marker, then the
key/value lines of its data rows (the lines after the header). -/
def fileBlock (delimiter : Str) (file : CsvFile) (i : Nat) : Str :=
  marker file.name ++ bundleLines delimiter (file.lines.drop 1) i

/-- The file `TestConvertToIOS` creates. -/
def testCsv : CsvFile :=
  ⟨"test.csv".toList, true,
    ["Key,en,sv".toList, "hello,Hello,Hej".toList, "world,World,Världen".toList], false⟩

/-- The stripping the specification words as "whitespace stripping": every
white-space character removed. -/
def stripWhitespace (s : Str) : Str := s.filter (fun c => !isSpace c)

/-- A file with a row whose key is `//x` after a tab. -/
def tabCommentCsv : CsvFile :=
  ⟨"a.csv".toList, true, ["Key,en".toList, "\t//x,v".toList], false⟩

/-- A file with a comment row between two data rows. -/
def commentCsv : CsvFile :=
  ⟨"a.csv".toList, true,
    ["Key,en,sv".toList, "hello,Hello,Hej".toList, " // note,x,y".toList,
      "world,World,Världen".toList], false⟩

/-- The two files `a.csv` and `b.csv` of the section-marker example. -/
def markerCsvs : List CsvFile :=
  [⟨"a.csv".toList, true, ["Key,en".toList, "one,One".toList], false⟩,
   ⟨"b.csv".toList, true, ["Key,en".toList, "two,Two".toList], false⟩]

/-- Two bundle directories of the same language, `a/en.lproj` and `b/en.lproj`,
in the order of the walk. -/
def repeatedLanguageDirs : List BundleDir :=
  [⟨"en".toList, .content ["\"hello\" = \"Hello\";".toList] false⟩,
   ⟨"en".toList, .content ["\"world\" = \"World\";".toList] false⟩]

/-- Two files in the order of the walk: the header of the first names no
language, the header of the second names `en`. -/
def bareHeaderCsvs : List CsvFile :=
  [⟨"a.csv".toList, true, ["Key".toList], false⟩,
   ⟨"b.csv".toList, true, ["Key,en".toList, "hello,Hello".toList], false⟩]

/-- The line `"<key>" = "<value>";` of a bundle, without its newline. -/
def kvText (key value : Str) : Str :=
  "\"".toList ++ key ++ "\" = \"".toList ++ value ++ "\";".toList

/-- The line `/* <filename> */` of a marker, without its newline. -/
def markerText (filename : Str) : Str := "/* ".toList ++ filename ++ " */".toList

/-- A field that survives the way through a bundle: it contains no line break
and neither begins nor ends with a double quote. -/
def plainField (f : Str) : Bool :=
  !f.contains '\n' && !HasPrefix f "\"".toList && !HasSuffix f "\"".toList

/-- The bundle the line parser of `readLocalizedFiles` builds from written text:
the text is scanned into lines and the lines are stored one after the other. -/
def parseBundle (text : Str) : Bundle := (scanLines text).foldl parseLine []

/-- A file whose name contains line breaks around a key/value line. -/
def breakNameCsv : CsvFile :=
  ⟨"x\n\"zz\" = \"1\";\n.csv".toList, true, ["Key,en".toList, "hello,Hello".toList], false⟩

/-- A file whose header names no language, with one data row. -/
def noLanguageCsv : CsvFile :=
  ⟨"a.csv".toList, true, ["Key".toList, "hello".toList], false⟩

/-- The file of `TestConvertToIOS` with its two data rows exchanged. -/
def shuffledCsv : CsvFile :=
  ⟨"test.csv".toList, true,
    ["Key,en,sv".toList, "world,World,Världen".toList, "hello,Hello,Hej".toList], false⟩

/-- The data rows of `shuffledCsv`. -/
def shuffledRows : List Str := ["world,World,Världen".toList, "hello,Hello,Hej".toList]

/-- The two outputs of `processCSVToIOS` for `shuffledCsv`, paired with their
languages, `sv` found before `en`. -/
def shuffledDiscovery : List (Str × Str) :=
  [("sv".toList, "\n/* test.csv */\n\"world\" = \"Världen\";\n\"hello\" = \"Hej\";\n".toList),
   ("en".toList, "\n/* test.csv */\n\"world\" = \"World\";\n\"hello\" = \"Hello\";\n".toList)]

/-! ## `validatePath` -/

/-- What `os.Stat` reports for a path: the file information of an existing entry
(here, whether it is a directory), the error for which `os.IsNotExist` holds, or
any other error (for instance a permission that is missing). -/
inductive StatResult
  | found (isDir : Bool)
  | notExist
  | failed
  deriving DecidableEq, Repr

/-- The test `os.IsNotExist(err)` on the error of a status lookup. -/
def IsNotExist : StatResult → Bool
  | .notExist => true
  | _ => false

/-- `validatePath`, over the status lookup `stat`: the error it returns, given by
its message, or `none` for `nil`. -/
def validatePath (stat : Str → StatResult) (path : Str) : Option Str :=
  if IsNotExist (stat path) then some ("path not found: ".toList ++ path) else none

/-- A status lookup in the situation of `TestValidatePath`: the directory `/tmp/t`
exists, nothing else does. -/
def testStat (path : Str) : StatResult :=
  if path = "/tmp/t".toList then .found true else .notExist

/-- Two files whose headers both name the language `en`. -/
def twoHeaderCsvs : List CsvFile :=
  [⟨"a.csv".toList, true, ["Key,en".toList, "one,One".toList], false⟩,
   ⟨"b.csv".toList, true, ["Key,en".toList, "two,Two".toList], false⟩]

/-- A strings file that assigns the key `hello` twice. -/
def repeatedKeyLines : List Str :=
  ["\"hello\" = \"Hello\";".toList, "\"world\" = \"World\";".toList,
   "\"hello\" = \"Hi\";".toList]

/-- A data row fits `n` outputs when it has a first field and either is a
comment or has at least `n` value fields. -/
def rowFits (delimiter : Str) (n : Nat) (row : Str) : Bool :=
  match Split row delimiter with
  | [] => false
  | p0 :: values => HasPrefix (ReplaceAll p0 " ".toList []) "//".toList || decide (n ≤ values.length)

/-- A file with a row whose key holds a tab. -/
def tabKeyCsv : CsvFile :=
  ⟨"a.csv".toList, true, ["Key,en".toList, "a\tb,v".toList], false⟩

/-- Two files in the order of the walk: the first has one line, which is empty,
the second has no line at all. -/
def blankThenEmptyCsvs : List CsvFile :=
  [⟨"a.csv".toList, true, [[]], false⟩, ⟨"b.csv".toList, true, [], false⟩]

/-! ## The order of Go strings -/

theorem toNat_inj {a b : Char} (h : a.toNat = b.toNat) : a = b := by
  rw [← Char.ofNat_toNat a, ← Char.ofNat_toNat b, h]

theorem strLt_irrefl (a : Str) : strLt a a = false := by
  induction a with
  | nil => rfl
  | cons c s ih => simp [strLt, ih]

theorem strLt_trans {a b c : Str} (hab : strLt a b = true) (hbc : strLt b c = true) :
    strLt a c = true := by
  induction a generalizing b c with
  | nil =>
    cases b with
    | nil => simp [strLt] at hab
    | cons y b =>
      cases c with
      | nil => simp [strLt] at hbc
      | cons z c => simp [strLt]
  | cons x a ih =>
    cases b with
    | nil => simp [strLt] at hab
    | cons y b =>
      cases c with
      | nil => simp [strLt] at hbc
      | cons z c =>
        simp only [strLt] at hab hbc ⊢
        split_ifs at hab hbc ⊢ <;> first | rfl | omega | exact ih hab hbc

theorem strLt_connex {a b : Str} (hab : strLt a b = false) (hba : strLt b a = false) :
    a = b := by
  induction a generalizing b with
  | nil =>
    cases b with
    | nil => rfl
    | cons y b => simp [strLt] at hab
  | cons x a ih =>
    cases b with
    | nil => simp [strLt] at hba
    | cons y b =>
      simp only [strLt] at hab hba
      split_ifs at hab hba
      · have hxy : x = y := toNat_inj (by omega)
        rw [hxy, ih hab hba]

theorem strLt_asymm {a b : Str} (hab : strLt a b = true) : strLt b a = false := by
  cases h : strLt b a with
  | false => rfl
  | true => have := strLt_trans hab h; rw [strLt_irrefl] at this; cases this

theorem strLe_total : IsTotal Str strLe :=
  ⟨fun a b => by
    cases h : strLt b a with
    | false => exact Or.inl h
    | true => exact Or.inr (strLt_asymm h)⟩

theorem strLe_trans : IsTrans Str strLe :=
  ⟨fun a b c hab hbc => by
    show strLt c a = false
    cases h : strLt c a with
    | false => rfl
    | true =>
      cases h' : strLt a b with
      | true => have := strLt_trans h h'; rw [hbc] at this; cases this
      | false => have := strLt_connex h' hab; subst this; rw [hbc] at h; cases h⟩

theorem strLe_antisymm : IsAntisymm Str strLe :=
  ⟨fun _ _ hab hba => strLt_connex hba hab⟩

theorem sortStrings_perm (l : List Str) : (sortStrings l).Perm l :=
  List.perm_insertionSort _ l

theorem sortStrings_sorted (l : List Str) : (sortStrings l).Sorted strLe :=
  haveI := strLe_total
  haveI := strLe_trans
  List.sorted_insertionSort _ l

theorem mem_sortStrings {l : List Str} {k : Str} : k ∈ sortStrings l ↔ k ∈ l :=
  (sortStrings_perm l).mem_iff

/-- A duplicate-free slice is strictly ascending after `sort.Strings`. -/
theorem sortStrings_strict {l : List Str} (h : l.Nodup) :
    (sortStrings l).Pairwise (fun a b => strLt a b = true) := by
  have hs := sortStrings_sorted l
  have hn : (sortStrings l).Nodup := (sortStrings_perm l).nodup_iff.mpr h
  unfold List.Sorted at hs
  refine (hs.and hn).imp ?_
  intro a b hab
  cases h' : strLt a b with
  | true => rfl
  | false => exact absurd (strLt_connex h' hab.1) hab.2

/-- Two strictly ascending lists with the same elements are equal. -/
theorem strict_unique {l₁ l₂ : List Str}
    (h₁ : l₁.Pairwise (fun a b => strLt a b = true))
    (h₂ : l₂.Pairwise (fun a b => strLt a b = true))
    (h : ∀ k, k ∈ l₁ ↔ k ∈ l₂) : l₁ = l₂ := by
  have n₁ : l₁.Nodup := h₁.imp (fun hab e => by subst e; rw [strLt_irrefl] at hab; cases hab)
  have n₂ : l₂.Nodup := h₂.imp (fun hab e => by subst e; rw [strLt_irrefl] at hab; cases hab)
  have hp : l₁.Perm l₂ := (List.perm_ext_iff_of_nodup n₁ n₂).mpr h
  haveI := strLe_antisymm
  exact List.eq_of_perm_of_sorted hp (h₁.imp (fun hab => strLt_asymm hab))
    (h₂.imp (fun hab => strLt_asymm hab))


/-! ## Go maps: lookup after assignment, keys -/

theorem mapGet_nil {V : Type} (k : Str) : mapGet ([] : GoMap V) k = none := rfl

theorem mapGet_cons {V : Type} (a k : Str) (b : V) (m : GoMap V) :
    mapGet ((a, b) :: m) k = if k = a then some b else mapGet m k := by
  by_cases h : k = a
  · simp [mapGet, List.lookup, h]
  · have : (k == a) = false := by simpa using h
    simp [mapGet, List.lookup, h, this]

theorem mapKeys_cons {V : Type} (a : Str) (b : V) (m : GoMap V) :
    mapKeys ((a, b) :: m) = a :: mapKeys m := rfl

theorem mapGet_mapSet {V : Type} (m : GoMap V) (k k' : Str) (v : V) :
    mapGet (mapSet m k v) k' = if k' = k then some v else mapGet m k' := by
  induction m with
  | nil => simp [mapSet, mapGet_cons, mapGet_nil]
  | cons p m ih =>
    obtain ⟨a, b⟩ := p
    by_cases ha : a = k
    · subst ha
      simp only [mapSet, if_true, mapGet_cons]
      by_cases h : k' = a <;> simp [h]
    · simp only [mapSet, ha, if_false, mapGet_cons, ih]
      by_cases h : k' = k
      · subst h
        have : ¬ k' = a := fun e => ha e.symm
        simp [this]
      · simp [h]

theorem mem_mapKeys_mapSet {V : Type} (m : GoMap V) (k k' : Str) (v : V) :
    k' ∈ mapKeys (mapSet m k v) ↔ k' = k ∨ k' ∈ mapKeys m := by
  induction m with
  | nil => simp [mapSet, mapKeys]
  | cons p m ih =>
    obtain ⟨a, b⟩ := p
    by_cases ha : a = k
    · subst ha; simp [mapSet, mapKeys_cons]
    · simp only [mapSet, ha, if_false, mapKeys_cons, List.mem_cons, ih]
      tauto

theorem nodup_mapKeys_mapSet {V : Type} (m : GoMap V) (k : Str) (v : V)
    (h : (mapKeys m).Nodup) : (mapKeys (mapSet m k v)).Nodup := by
  induction m with
  | nil => simp [mapSet, mapKeys]
  | cons p m ih =>
    obtain ⟨a, b⟩ := p
    rw [mapKeys_cons, List.nodup_cons] at h
    by_cases ha : a = k
    · subst ha
      simp only [mapSet, if_true, mapKeys_cons, List.nodup_cons]
      exact h
    · simp only [mapSet, ha, if_false, mapKeys_cons, List.nodup_cons, mem_mapKeys_mapSet]
      exact ⟨fun hh => hh.elim False.elim h.1, ih h.2⟩

theorem mapGet_isSome_iff {V : Type} (m : GoMap V) (k : Str) :
    (mapGet m k).isSome ↔ k ∈ mapKeys m := by
  induction m with
  | nil => simp [mapGet_nil, mapKeys]
  | cons p m ih =>
    obtain ⟨a, b⟩ := p
    rw [mapGet_cons, mapKeys_cons, List.mem_cons]
    by_cases h : k = a
    · simp [h]
    · simp [h, ih]

/-! ## The key set of `writeCSV` -/

/-- The inner loop `for key := range langMap` of `writeCSV`. -/
theorem collect_inner (langMap : Bundle) (keys : GoMap Bool) :
    (∀ k, k ∈ mapKeys (langMap.foldl (fun keys kv => mapSet keys kv.1 true) keys) ↔
      k ∈ mapKeys keys ∨ ∃ v, (k, v) ∈ langMap) ∧
    ((mapKeys keys).Nodup →
      (mapKeys (langMap.foldl (fun keys kv => mapSet keys kv.1 true) keys)).Nodup) := by
  induction langMap generalizing keys with
  | nil => simp
  | cons kv langMap ih =>
    obtain ⟨a, b⟩ := kv
    simp only [List.foldl_cons]
    refine ⟨fun k => ?_, fun h => (ih _).2 (nodup_mapKeys_mapSet _ _ _ h)⟩
    rw [(ih _).1 k, mem_mapKeys_mapSet]
    constructor
    · rintro ((h | h) | ⟨v, h⟩)
      · exact Or.inr ⟨b, by simp [h]⟩
      · exact Or.inl h
      · exact Or.inr ⟨v, by simp [h]⟩
    · rintro (h | ⟨v, h⟩)
      · exact Or.inl (Or.inr h)
      · rcases List.mem_cons.mp h with h | h
        · exact Or.inl (Or.inl (by cases h; rfl))
        · exact Or.inr ⟨v, h⟩

/-- The outer loop `for _, langMap := range languages` of `writeCSV`. -/
theorem collect_outer (languages : Languages) (keys : GoMap Bool) :
    (∀ k, k ∈ mapKeys (languages.foldl
        (fun keys langMap => langMap.2.foldl (fun keys kv => mapSet keys kv.1 true) keys) keys) ↔
      k ∈ mapKeys keys ∨ ∃ lang bundle v, (lang, bundle) ∈ languages ∧ (k, v) ∈ bundle) ∧
    ((mapKeys keys).Nodup → (mapKeys (languages.foldl
        (fun keys langMap => langMap.2.foldl (fun keys kv => mapSet keys kv.1 true) keys)
        keys)).Nodup) := by
  induction languages generalizing keys with
  | nil => simp
  | cons lm languages ih =>
    obtain ⟨l, b⟩ := lm
    simp only [List.foldl_cons]
    refine ⟨fun k => ?_, fun h => (ih _).2 ((collect_inner b keys).2 h)⟩
    rw [(ih _).1 k, (collect_inner b keys).1 k]
    constructor
    · rintro ((h | ⟨v, h⟩) | ⟨lang, bundle, v, h, hv⟩)
      · exact Or.inl h
      · exact Or.inr ⟨l, b, v, by simp, h⟩
      · exact Or.inr ⟨lang, bundle, v, by simp [h], hv⟩
    · rintro (h | ⟨lang, bundle, v, h, hv⟩)
      · exact Or.inl (Or.inl h)
      · rcases List.mem_cons.mp h with h | h
        · cases h; exact Or.inl (Or.inr ⟨v, hv⟩)
        · exact Or.inr ⟨lang, bundle, v, h, hv⟩

theorem mem_sortedKeys (languages : Languages) (k : Str) :
    k ∈ sortedKeys languages ↔
      ∃ lang bundle v, (lang, bundle) ∈ languages ∧ (k, v) ∈ bundle := by
  unfold sortedKeys collectKeys
  rw [mem_sortStrings, (collect_outer languages []).1 k]
  simp [mapKeys]

theorem sortedKeys_strict (languages : Languages) :
    (sortedKeys languages).Pairwise (fun a b => strLt a b = true) :=
  sortStrings_strict ((collect_outer languages []).2 (by simp [mapKeys]))

theorem csvRows_heads (languages : Languages) (languageOrder : List Str) :
    (csvRows languages languageOrder).map List.head? = (sortedKeys languages).map some := by
  simp [csvRows, csvRow, Function.comp_def]

/-! ## `writeCSV` -/

theorem collectKeys_empty (languages : Languages) (h : ∀ lb ∈ languages, lb.2 = []) :
    collectKeys languages = [] := by
  unfold collectKeys
  induction languages with
  | nil => rfl
  | cons lb languages ih =>
    have h1 : lb.2 = [] := h lb (by simp)
    simp only [List.foldl_cons, h1, List.foldl_nil]
    exact ih (fun x hx => h x (by simp [hx]))

/-- C2. The first fields of the rows `writeCSV` writes after the header are the
slice `sortedKeys`: it holds exactly the keys that occur in a bundle, each once,
in strictly ascending order, and so it is the same for any two maps with the same
keys, however they are laid out. For the bundles of `TestConvertToCSV` the rows
are `hello`, `world`. -/
theorem writeCSV_key_rows (delimiter : Str) (languages : Languages) (languageOrder : List Str) :
    writeCSV delimiter languages languageOrder
        = Fprintln (Join ("Key".toList :: languageOrder) delimiter)
          ++ (csvRows languages languageOrder).flatMap (fun row => Fprintln (Join row delimiter))
      ∧ (csvRows languages languageOrder).map List.head? = (sortedKeys languages).map some
      ∧ (∀ k, k ∈ sortedKeys languages ↔
          ∃ lang bundle v, (lang, bundle) ∈ languages ∧ (k, v) ∈ bundle)
      ∧ (sortedKeys languages).Nodup
      ∧ (sortedKeys languages).Pairwise (fun a b => strLt a b = true)
      ∧ (∀ languages' : Languages,
          (∀ k, (∃ lang bundle v, (lang, bundle) ∈ languages' ∧ (k, v) ∈ bundle) ↔
            ∃ lang bundle v, (lang, bundle) ∈ languages ∧ (k, v) ∈ bundle) →
          sortedKeys languages' = sortedKeys languages)
      ∧ (csvRows testBundles ["en".toList, "sv".toList]).map List.head?
          = [some "hello".toList, some "world".toList] := by
  refine ⟨rfl, csvRows_heads _ _, mem_sortedKeys _, ?_, sortedKeys_strict _, ?_, by decide⟩
  · exact (sortedKeys_strict languages).imp
      (fun hab e => by subst e; rw [strLt_irrefl] at hab; cases hab)
  · intro languages' h
    refine strict_unique (sortedKeys_strict _) (sortedKeys_strict _) (fun k => ?_)
    rw [mem_sortedKeys, mem_sortedKeys, h]

/-- C3. In the row of a key, the field after the key at position `j` of the
language order is the value `languages[lang][key]`: the value the bundle of the
language stores for the key, the empty string when the bundle has no such key
(or the language has no bundle). In the example where `en` defines `a` and `sv`
does not, the row is `a`, the value of `en`, and an empty field. -/
theorem writeCSV_cells (languages : Languages) (languageOrder : List Str)
    (row : List Str) (j : Nat) (lang : Str)
    (hrow : row ∈ csvRows languages languageOrder)
    (hlang : languageOrder[j]? = some lang) :
    (∃ key, row.head? = some key ∧ key ∈ sortedKeys languages
      ∧ (∀ bundle v, mapGet languages lang = some bundle → mapGet bundle key = some v →
          row[j + 1]? = some v)
      ∧ (∀ bundle, mapGet languages lang = some bundle → mapGet bundle key = none →
          row[j + 1]? = some [])
      ∧ (mapGet languages lang = none → row[j + 1]? = some []))
    ∧ csvRows gapBundles ["en".toList, "sv".toList] = [["a".toList, "A".toList, []]] := by
  refine ⟨?_, by decide⟩
  obtain ⟨key, hkey, rfl⟩ := List.mem_map.mp hrow
  refine ⟨key, rfl, hkey, ?_, ?_, ?_⟩
  · intro bundle v hb hv
    simp [csvRow, List.getElem?_map, hlang, cell, hb, hv]
  · intro bundle hb hv
    simp [csvRow, List.getElem?_map, hlang, cell, hb, hv]
  · intro hb
    simp [csvRow, List.getElem?_map, hlang, cell, hb, mapGet_nil]

/-- The statement of `writeCSV_cells` at the row of `a` and the column of `sv` in
the example of a gap. -/
theorem writeCSV_cells_witness :
    (∃ key, ["a".toList, "A".toList, []].head? = some key ∧ key ∈ sortedKeys gapBundles
      ∧ (∀ bundle v, mapGet gapBundles "sv".toList = some bundle → mapGet bundle key = some v →
          ["a".toList, "A".toList, []][1 + 1]? = some v)
      ∧ (∀ bundle, mapGet gapBundles "sv".toList = some bundle → mapGet bundle key = none →
          ["a".toList, "A".toList, []][1 + 1]? = some [])
      ∧ (mapGet gapBundles "sv".toList = none →
          ["a".toList, "A".toList, []][1 + 1]? = some []))
    ∧ csvRows gapBundles ["en".toList, "sv".toList] = [["a".toList, "A".toList, []]] :=
  writeCSV_cells gapBundles ["en".toList, "sv".toList] ["a".toList, "A".toList, []] 1
    "sv".toList (by decide) (by decide)

/-- C4. The text `writeCSV` writes is the line of `Key` and the languages joined
by the delimiter, then one line per row, each line ended by a newline; a row is
its key followed by one field per language, in the language order. Without
languages and keys the text is the line `Key`. For the bundles of
`TestConvertToCSV` and the delimiter `,` the text is the one the test expects. -/
theorem writeCSV_layout (delimiter : Str) (languages : Languages) (languageOrder : List Str) :
    writeCSV delimiter languages languageOrder
        = Join ("Key".toList :: languageOrder) delimiter ++ "\n".toList
          ++ ((csvRows languages languageOrder).map
              (fun row => Join row delimiter ++ "\n".toList)).flatten
      ∧ (∀ row ∈ csvRows languages languageOrder, ∃ key values,
          row = key :: values ∧ values.length = languageOrder.length
          ∧ ∀ (j : Nat) lang, languageOrder[j]? = some lang →
              values[j]? = some (cell languages lang key))
      ∧ ((∀ lb ∈ languages, lb.2 = []) → writeCSV delimiter languages [] = "Key\n".toList)
      ∧ writeCSV ",".toList testBundles ["en".toList, "sv".toList]
          = "Key,en,sv\nhello,Hello,Hej\nworld,World,Världen\n".toList := by
  refine ⟨?_, ?_, ?_, by decide⟩
  · simp [writeCSV, Fprintln, List.flatMap]
  · intro row hrow
    obtain ⟨key, _, rfl⟩ := List.mem_map.mp hrow
    refine ⟨key, _, rfl, by simp, ?_⟩
    intro j lang hj
    simp [List.getElem?_map, hj]
  · intro h
    simp [writeCSV, csvRows, sortedKeys, collectKeys_empty languages h, mapKeys, sortStrings,
      Fprintln, Join, List.intercalate]

/-! ## Searching and cutting -/

theorem HasPrefix_iff (s p : Str) : HasPrefix s p = true ↔ p <+: s := by
  simp [HasPrefix]

theorem HasSuffix_iff (s p : Str) : HasSuffix s p = true ↔ p <:+ s := by
  simp [HasSuffix]

/-- A cut splits the string around one occurrence of the separator. -/
theorem cutFirst_some {sep s a b : Str} (h : cutFirst sep s = some (a, b)) :
    s = a ++ sep ++ b := by
  induction s generalizing a with
  | nil =>
    simp only [cutFirst] at h
    split_ifs at h with hs
    cases h
    simp [hs]
  | cons c s ih =>
    simp only [cutFirst] at h
    split_ifs at h with hp
    · cases h
      obtain ⟨t, ht⟩ := (HasPrefix_iff _ _).mp hp
      rw [← ht]
      simp
    · cases hc : cutFirst sep s with
      | none => rw [hc] at h; cases h
      | some p =>
        obtain ⟨a', b'⟩ := p
        rw [hc] at h
        cases h
        rw [ih hc]
        simp

/-- There is no cut exactly when the separator does not occur. -/
theorem cutFirst_none_iff (sep s : Str) : cutFirst sep s = none ↔ ¬ sep <:+: s := by
  induction s with
  | nil =>
    simp only [cutFirst, List.infix_nil]
    split_ifs with hs <;> simp [hs]
  | cons c s ih =>
    simp only [cutFirst, List.infix_cons_iff]
    split_ifs with hp
    · simp [(HasPrefix_iff _ _).mp hp]
    · have hp' : ¬ sep <+: c :: s := fun h => hp ((HasPrefix_iff _ _).mpr h)
      cases hc : cutFirst sep s with
      | none => simp [hp', ih.mp hc]
      | some p =>
        have : sep <:+: s := by
          by_contra hn
          rw [ih.mpr hn] at hc
          cases hc
        simp [this]

/-- The cut is at the first occurrence: a separator that starts with a character
absent from `a` is first found right after `a`. -/
theorem cutFirst_append {c : Char} {sep a : Str} (b : Str) (hc : c ∉ a) :
    cutFirst (c :: sep) (a ++ c :: (sep ++ b)) = some (a, b) := by
  induction a with
  | nil =>
    have hp : HasPrefix (c :: (sep ++ b)) (c :: sep) = true :=
      (HasPrefix_iff _ _).mpr ⟨b, by simp⟩
    simp [cutFirst, hp]
  | cons x a ih =>
    have hx : x ≠ c := fun e => hc (by simp [e])
    have hp : HasPrefix (x :: (a ++ c :: (sep ++ b))) (c :: sep) = false := by
      cases h : HasPrefix (x :: (a ++ c :: (sep ++ b))) (c :: sep) with
      | false => rfl
      | true =>
        obtain ⟨t, ht⟩ := (HasPrefix_iff _ _).mp h
        simp at ht
        exact absurd ht.1.symm hx
    have ih' := ih (fun h => hc (by simp [h]))
    rw [List.cons_append, cutFirst, hp, ih']
    rfl

theorem SplitN2_eq (s sep : Str) :
    SplitN2 s sep = match cutFirst sep s with
      | none => [s]
      | some (a, b) => [a, b] := by
  unfold SplitN2
  rw [splitLoop]
  cases cutFirst sep s with
  | none => rfl
  | some p => rfl

/-! ## The line parser of `readLocalizedFiles` -/

/-- The decision of the line parser, for any two comment openers and any
separator. -/
theorem parse_decision {α : Type} (line p q sep : Str) (f : Str → Str → α) :
    (if line = [] || HasPrefix line p || HasPrefix line q then none
      else
        match SplitN2 line sep with
        | [p0, p1] => some (f p0 p1)
        | _ => none).isSome = true ↔
      (line ≠ [] ∧ ¬ p <+: line ∧ ¬ q <+: line ∧ sep <:+: line) := by
  by_cases h1 : line = []
  · simp [h1]
  by_cases h2 : p <+: line
  · simp [(HasPrefix_iff _ _).mpr h2, h2]
  by_cases h3 : q <+: line
  · simp [(HasPrefix_iff _ _).mpr h3, h3]
  have h2' : HasPrefix line p = false := by
    simpa using fun h => h2 ((HasPrefix_iff _ _).mp h)
  have h3' : HasPrefix line q = false := by
    simpa using fun h => h3 ((HasPrefix_iff _ _).mp h)
  rw [SplitN2_eq, h2', h3']
  cases hc : cutFirst sep line with
  | none =>
    have := (cutFirst_none_iff _ _).mp hc
    simp [h1, this]
  | some p =>
    have : sep <:+: line := by
      by_contra hn
      rw [(cutFirst_none_iff _ _).mpr hn] at hc
      cases hc
    simp [h1, h2, h3, this]

theorem parseKV_isSome_iff (text : Str) :
    (parseKV text).isSome = true ↔
      (TrimSpace text ≠ [] ∧ ¬ "/*".toList <+: TrimSpace text
        ∧ ¬ "//".toList <+: TrimSpace text ∧ " = ".toList <:+: TrimSpace text) :=
  parse_decision (TrimSpace text) "/*".toList "//".toList " = ".toList
    (fun p0 p1 => (Trim p0 "\"".toList, Trim (TrimSuffix p1 ";".toList) "\"".toList))

theorem visitBundle_content (st : Localized) (lang : Str) (ls : List Str) :
    visitBundle st ⟨lang, .content ls false⟩
      = .ok ⟨mapSet (mapSet st.languages lang []) lang (ls.foldl parseLine []),
          st.languageOrder ++ [lang]⟩ := by
  simp [visitBundle]

/-- C10. The line parser stores an entry exactly when the line, trimmed of
surrounding white space, is not empty, does not start with `/*` or `//` and
contains ` = `; the entry is then in the bundle. Any other line leaves the bundle
as it is. No line makes the visit of its directory return an error: a strings file
that is read without an input error is processed whatever its lines are. -/
theorem parseLine_tolerant (bundle : Bundle) (text : Str) :
    ((∃ key value, parseKV text = some (key, value)) ↔
        (TrimSpace text ≠ [] ∧ ¬ "/*".toList <+: TrimSpace text
          ∧ ¬ "//".toList <+: TrimSpace text ∧ " = ".toList <:+: TrimSpace text))
      ∧ (∀ key value, parseKV text = some (key, value) →
          parseLine bundle text = mapSet bundle key value
          ∧ mapGet (parseLine bundle text) key = some value)
      ∧ (parseKV text = none → parseLine bundle text = bundle)
      ∧ (∀ (st : Localized) (lang : Str) (before after : List Str),
          ∃ st', visitBundle st ⟨lang, .content (before ++ text :: after) false⟩ = .ok st') := by
  refine ⟨?_, ?_, ?_, ?_⟩
  · rw [← parseKV_isSome_iff, Option.isSome_iff_exists]
    simp
  · intro key value h
    simp [parseLine, h, mapGet_mapSet]
  · intro h
    simp [parseLine, h]
  · intro st lang before after
    exact ⟨_, visitBundle_content st lang _⟩

/-! ## `processCSVToIOS` -/

theorem bundleLines_cons (delimiter row : Str) (rows : List Str) (i : Nat) :
    bundleLines delimiter (row :: rows) i
      = (if isComment delimiter row then []
          else kvLine (rowKey delimiter row) (rowValue delimiter row i))
        ++ bundleLines delimiter rows i := by
  unfold bundleLines
  by_cases h : isComment delimiter row = true
  · simp [List.filter_cons, h]
  · simp [List.filter_cons, h]

theorem bundleLines_append (delimiter : Str) (rows rows' : List Str) (i : Nat) :
    bundleLines delimiter (rows ++ rows') i
      = bundleLines delimiter rows i ++ bundleLines delimiter rows' i := by
  simp [bundleLines, List.filter_append]

/-- A completed inner loop has appended to every writer the line of its own
value. -/
theorem writeRow_spec (key : Str) (values : List Str) (i0 : Nat) (outs outs' : List Str)
    (h : writeRow key values i0 outs = (outs', true)) :
    outs'.length = outs.length ∧
      ∀ (j : Nat) (w : Str), outs[j]? = some w →
        outs'[j]? = some (w ++ kvLine key (values.getD (i0 + j) [])) := by
  induction outs generalizing i0 outs' with
  | nil =>
    simp only [writeRow, Prod.mk.injEq] at h
    simp [← h.1]
  | cons x outs ih =>
    simp only [writeRow] at h
    cases hv : values.get? i0 with
    | none => rw [hv] at h; simp at h
    | some v =>
      rw [hv] at h
      simp only [Prod.mk.injEq] at h
      obtain ⟨h1, h2⟩ := h
      have ih' := ih (i0 + 1) (writeRow key values (i0 + 1) outs).1 (by rw [← h2])
      subst h1
      refine ⟨by simp [ih'.1], ?_⟩
      intro j w hj
      cases j with
      | zero =>
        simp only [List.getElem?_cons_zero, Option.some.injEq] at hj
        subst hj
        have : values[i0]?.getD [] = v := by
          rw [← List.get?_eq_getElem?, hv]; rfl
        simp [this]
      | succ j =>
        simp only [List.getElem?_cons_succ] at hj ⊢
        rw [ih'.2 j w hj]
        have : i0 + 1 + j = i0 + (j + 1) := by omega
        rw [this]

/-- The inner loop completes when there is a value for every writer. -/
theorem writeRow_enough (key : Str) (values : List Str) (i0 : Nat) (outs : List Str)
    (h : outs.length + i0 ≤ values.length) : (writeRow key values i0 outs).2 = true := by
  induction outs generalizing i0 with
  | nil => rfl
  | cons x outs ih =>
    have hlt : i0 < values.length := by simp at h; omega
    simp only [writeRow]
    rw [List.get?_eq_getElem?, List.getElem?_eq_getElem hlt]
    exact ih (i0 + 1) (by simp at h ⊢; omega)

theorem processRow_spec (delimiter : Str) (outs outs' : List Str) (row : Str)
    (h : processRow delimiter outs row = (outs', true)) :
    outs'.length = outs.length ∧
      ∀ (j : Nat) (w : Str), outs[j]? = some w →
        outs'[j]? = some (w ++ (if isComment delimiter row then []
          else kvLine (rowKey delimiter row) (rowValue delimiter row j))) := by
  unfold processRow at h
  unfold isComment rowKey rowValue
  generalize "//".toList = q at h ⊢
  generalize " ".toList = sp at h ⊢
  cases hs : Split row delimiter with
  | nil => rw [hs] at h; simp at h
  | cons p0 values =>
    rw [hs] at h
    simp only [] at h
    simp only [List.headD_cons, List.tail_cons]
    by_cases hc : HasPrefix (ReplaceAll p0 sp []) q = true
    · rw [if_pos hc] at h
      simp only [Prod.mk.injEq, and_true] at h
      subst h
      simp [hc]
    · rw [if_neg hc] at h
      have := writeRow_spec _ _ _ _ _ h
      simpa [hc] using this

theorem processRow_enough (delimiter : Str) (outs : List Str) (row : Str)
    (hne : outs ≠ []) (h : outs.length ≤ (Split row delimiter).tail.length) :
    (processRow delimiter outs row).2 = true := by
  unfold processRow
  cases hs : Split row delimiter with
  | nil =>
    rw [hs] at h
    cases outs with
    | nil => exact absurd rfl hne
    | cons x outs => simp at h
  | cons p0 values =>
    rw [hs] at h
    simp only []
    split_ifs
    · rfl
    · exact writeRow_enough _ _ _ _ (by simpa using h)

theorem processRows_spec (delimiter : Str) (rows : List Str) (outs outs' : List Str)
    (h : processRows delimiter outs rows = (outs', true)) :
    outs'.length = outs.length ∧
      ∀ (j : Nat) (w : Str), outs[j]? = some w →
        outs'[j]? = some (w ++ bundleLines delimiter rows j) := by
  induction rows generalizing outs with
  | nil =>
    simp only [processRows, Prod.mk.injEq, and_true] at h
    subst h
    simp [bundleLines]
  | cons row rows ih =>
    simp only [processRows] at h
    cases hr : processRow delimiter outs row with
    | mk outs1 ok =>
      rw [hr] at h
      cases ok with
      | false => simp at h
      | true =>
        simp only [] at h
        have h1 := processRow_spec _ _ _ _ hr
        have h2 := ih outs1 h
        refine ⟨h2.1.trans h1.1, ?_⟩
        intro j w hj
        rw [h2.2 j _ (h1.2 j w hj), bundleLines_cons, List.append_assoc]

theorem processRows_enough (delimiter : Str) (rows : List Str) (outs : List Str)
    (hne : outs ≠ [])
    (h : ∀ row ∈ rows, outs.length ≤ (Split row delimiter).tail.length) :
    (processRows delimiter outs rows).2 = true := by
  induction rows generalizing outs with
  | nil => rfl
  | cons row rows ih =>
    simp only [processRows]
    have h1 := processRow_enough delimiter outs row hne (h row (by simp))
    cases hr : processRow delimiter outs row with
    | mk outs1 ok =>
      rw [hr] at h1
      simp only [] at h1
      subst h1
      simp only []
      have hl := (processRow_spec _ _ _ _ hr).1
      refine ih outs1 ?_ ?_
      · intro e; rw [e] at hl; exact hne (List.length_eq_zero.mp hl.symm)
      · intro r hr'
        rw [hl]
        exact h r (by simp [hr'])

/-- A call of `processCSVToIOS` that returns `nil` has appended the block of the
file to the text of every writer. -/
theorem processCSVToIOS_ok (delimiter : Str) (file : CsvFile) (outs outs' : List Str)
    (h : processCSVToIOS delimiter file outs = (outs', Exit.ok)) :
    outs'.length = outs.length ∧
      ∀ (j : Nat) (w : Str), outs[j]? = some w →
        outs'[j]? = some (w ++ fileBlock delimiter file j) := by
  unfold processCSVToIOS at h
  cases hr : file.readable with
  | false => rw [hr] at h; simp at h
  | true =>
    rw [hr] at h
    simp only [if_true] at h
    cases hp : processRows delimiter (outs.map (fun w => w ++ marker file.name))
        (file.lines.drop 1) with
    | mk outs1 ok =>
      rw [hp] at h
      cases ok with
      | false => simp at h
      | true =>
        simp only [Prod.mk.injEq] at h
        obtain ⟨h1, _⟩ := h
        subst h1
        have hs := processRows_spec _ _ _ _ hp
        refine ⟨by simpa using hs.1, ?_⟩
        intro j w hj
        rw [hs.2 j (w ++ marker file.name) (by simp [List.getElem?_map, hj])]
        simp [fileBlock]

/-- C5. For a file given by its name and lines, whose data rows (the lines after
the first) all have at least as many value fields as there are language outputs,
`processCSVToIOS` appends to the text of output `i` the marker of the file and
then one line `"<key>" = "<value_i>";` per data row that is not a comment, in
file order; the call returns `nil` unless the scanner reports an error. For the
file of `TestConvertToIOS` the two outputs are the ones the test expects. -/
theorem processCSVToIOS_bundle_text (delimiter name : Str) (lines : List Str)
    (scanErr : Bool) (outs : List Str) (i : Nat) (w : Str)
    (hrows : ∀ row ∈ lines.drop 1, outs.length ≤ (Split row delimiter).tail.length)
    (hi : outs[i]? = some w) :
    (processCSVToIOS delimiter ⟨name, true, lines, scanErr⟩ outs).2
        = (if scanErr then Exit.error Err.io else Exit.ok)
      ∧ (processCSVToIOS delimiter ⟨name, true, lines, scanErr⟩ outs).1[i]?
        = some (w ++ ("\n/* ".toList ++ name ++ " */\n".toList)
            ++ ((lines.drop 1).filter (fun row => !isComment delimiter row)).flatMap
                (fun row => "\"".toList ++ rowKey delimiter row ++ "\" = \"".toList
                  ++ rowValue delimiter row i ++ "\";\n".toList))
      ∧ (processCSVToIOS ",".toList testCsv [[], []]).1
        = ["\n/* test.csv */\n\"hello\" = \"Hello\";\n\"world\" = \"World\";\n".toList,
           "\n/* test.csv */\n\"hello\" = \"Hej\";\n\"world\" = \"Världen\";\n".toList] := by
  refine ⟨?_, ?_, by decide⟩
  · have hne : outs.map (fun w => w ++ marker name) ≠ [] := by
      intro e
      rw [List.map_eq_nil_iff] at e
      rw [e] at hi
      simp at hi
    have hok := processRows_enough delimiter (lines.drop 1) _ hne (by simpa using hrows)
    unfold processCSVToIOS
    simp only [if_true]
    cases hp : processRows delimiter (outs.map (fun w => w ++ marker name))
        (lines.drop 1) with
    | mk outs1 ok =>
      rw [hp] at hok
      simp only [] at hok
      subst hok
      rfl
  · have hne : outs.map (fun w => w ++ marker name) ≠ [] := by
      intro e
      rw [List.map_eq_nil_iff] at e
      rw [e] at hi
      simp at hi
    have hok := processRows_enough delimiter (lines.drop 1) _ hne (by simpa using hrows)
    unfold processCSVToIOS
    simp only [if_true]
    cases hp : processRows delimiter (outs.map (fun w => w ++ marker name))
        (lines.drop 1) with
    | mk outs1 ok =>
      rw [hp] at hok
      simp only [] at hok
      subst hok
      have hs := (processRows_spec _ _ _ _ hp).2 i (w ++ marker name)
        (by simp [List.getElem?_map, hi])
      simp only []
      rw [hs]
      rfl

/-- The statement of `processCSVToIOS_bundle_text` at the file of
`TestConvertToIOS` and its second output. -/
theorem processCSVToIOS_bundle_text_witness :
    (processCSVToIOS ",".toList
        ⟨"test.csv".toList, true,
          ["Key,en,sv".toList, "hello,Hello,Hej".toList, "world,World,Världen".toList],
          false⟩ [[], []]).2
        = (if false then Exit.error Err.io else Exit.ok)
      ∧ (processCSVToIOS ",".toList
        ⟨"test.csv".toList, true,
          ["Key,en,sv".toList, "hello,Hello,Hej".toList, "world,World,Världen".toList],
          false⟩ [[], []]).1[1]?
        = some ([] ++ ("\n/* ".toList ++ "test.csv".toList ++ " */\n".toList)
            ++ ((["Key,en,sv".toList, "hello,Hello,Hej".toList,
                  "world,World,Världen".toList].drop 1).filter
                (fun row => !isComment ",".toList row)).flatMap
                (fun row => "\"".toList ++ rowKey ",".toList row ++ "\" = \"".toList
                  ++ rowValue ",".toList row 1 ++ "\";\n".toList))
      ∧ (processCSVToIOS ",".toList testCsv [[], []]).1
        = ["\n/* test.csv */\n\"hello\" = \"Hello\";\n\"world\" = \"World\";\n".toList,
           "\n/* test.csv */\n\"hello\" = \"Hej\";\n\"world\" = \"Världen\";\n".toList] :=
  processCSVToIOS_bundle_text ",".toList "test.csv".toList
    ["Key,en,sv".toList, "hello,Hello,Hej".toList, "world,World,Världen".toList]
    false [[], []] 1 [] (by decide) (by decide)

theorem processRows_skip (delimiter : Str) (before after : List Str) (row : Str)
    (hrow : ∀ outs, processRow delimiter outs row = (outs, true)) (outs : List Str) :
    processRows delimiter outs (before ++ row :: after)
      = processRows delimiter outs (before ++ after) := by
  induction before generalizing outs with
  | nil => simp [processRows, hrow]
  | cons b before ih =>
    simp only [List.cons_append, processRows]
    cases hb : processRow delimiter outs b with
    | mk outs1 ok =>
      cases ok with
      | true => exact ih outs1
      | false => rfl

/-- C6 as stated fails: the first field `\t//x` starts with `//` once its white
space is stripped, yet the row is written as a key/value line (only the space
character is removed from a key). -/
theorem comment_whitespace_counterexample :
    HasPrefix (stripWhitespace ((Split "\t//x,v".toList ",".toList).headD [])) "//".toList
        = true
      ∧ (processCSVToIOS ",".toList tabCommentCsv [[]]).1
        = ["\n/* a.csv */\n\"\t//x\" = \"v\";\n".toList]
      ∧ (processCSVToIOS ",".toList tabCommentCsv [[]]).1
        ≠ (processCSVToIOS ",".toList ⟨"a.csv".toList, true, ["Key,en".toList], false⟩ [[]]).1 := by
  decide

/-- C6, amended. A data row whose first field starts with `//` once its space
characters (U+0020) are removed changes no output: the loop body leaves every
text as it is, and the call on the file gives the same texts and the same result
as on the file without that row. -/
theorem processCSVToIOS_comment_row (delimiter : Str) (file : CsvFile) (header row p0 : Str)
    (before after rest : List Str) (outs : List Str)
    (hlines : file.lines = header :: (before ++ row :: after))
    (hsplit : Split row delimiter = p0 :: rest)
    (hcomment : HasPrefix (ReplaceAll p0 " ".toList []) "//".toList = true) :
    processRow delimiter outs row = (outs, true)
      ∧ processCSVToIOS delimiter file outs
        = processCSVToIOS delimiter
            ⟨file.name, file.readable, header :: (before ++ after), file.scanErr⟩ outs := by
  have hrow : ∀ outs, processRow delimiter outs row = (outs, true) := by
    intro outs
    unfold processRow
    rw [hsplit]
    simp only []
    rw [if_pos hcomment]
  refine ⟨hrow outs, ?_⟩
  unfold processCSVToIOS
  simp only [hlines, List.drop_succ_cons, List.drop_zero]
  rw [processRows_skip delimiter before after row hrow]

/-- The statement of `processCSVToIOS_comment_row` at a file with the comment
row ` // note,x,y`. -/
theorem processCSVToIOS_comment_row_witness :
    processRow ",".toList [[], []] " // note,x,y".toList = ([[], []], true)
      ∧ processCSVToIOS ",".toList commentCsv [[], []]
        = processCSVToIOS ",".toList
            ⟨commentCsv.name, commentCsv.readable,
              "Key,en,sv".toList :: (["hello,Hello,Hej".toList]
                ++ ["world,World,Världen".toList]), commentCsv.scanErr⟩ [[], []] :=
  processCSVToIOS_comment_row ",".toList commentCsv "Key,en,sv".toList
    " // note,x,y".toList " // note".toList ["hello,Hello,Hej".toList]
    ["world,World,Världen".toList] ["x".toList, "y".toList] [[], []]
    (by decide) (by decide) (by decide)

theorem startLocalizeIOS_ok (delimiter : Str) (files : List CsvFile) (outs res : List Str)
    (h : startLocalizeIOS delimiter files outs = (res, Exit.ok)) :
    res.length = outs.length ∧
      ∀ (j : Nat) (w : Str), outs[j]? = some w →
        res[j]? = some (w ++ files.flatMap (fun f => fileBlock delimiter f j)) := by
  induction files generalizing outs with
  | nil =>
    simp only [startLocalizeIOS, Prod.mk.injEq, and_true] at h
    subst h
    simp
  | cons f files ih =>
    simp only [startLocalizeIOS] at h
    cases hp : processCSVToIOS delimiter f outs with
    | mk outs1 e =>
      rw [hp] at h
      cases e with
      | ok =>
        simp only [] at h
        have h1 := processCSVToIOS_ok _ _ _ _ hp
        have h2 := ih outs1 h
        refine ⟨h2.1.trans h1.1, ?_⟩
        intro j w hj
        rw [h2.2 j _ (h1.2 j w hj)]
        simp
      | error e => simp at h
      | panic => simp at h

/-! ## Two defects, evaluated -/

/-- C8, the defect. With two directories of the language `en`, the first holding
`hello` and the second `world`, the second visit replaces the bundle of the
first: the table has the column `en` twice and no row for `hello`, although the
line of `hello` parses to an entry. -/
theorem repeated_language_loses_keys :
    parseKV "\"hello\" = \"Hello\";".toList = some ("hello".toList, "Hello".toList)
      ∧ ConvertToCSV ",".toList repeatedLanguageDirs
        = Except.ok "Key,en,en\nworld,World,World\n".toList
      ∧ (∀ r, readLocalizedFiles repeatedLanguageDirs = Except.ok r →
          r.languageOrder = ["en".toList, "en".toList]
          ∧ r.languages = [("en".toList, [("world".toList, "World".toList)])]
          ∧ "hello".toList ∉ sortedKeys r.languages) := by
  refine ⟨by decide, rfl, ?_⟩
  intro r hr
  have h : readLocalizedFiles repeatedLanguageDirs
      = Except.ok ⟨[("en".toList, [("world".toList, "World".toList)])],
          ["en".toList, "en".toList]⟩ := rfl
  rw [h] at hr
  cases hr
  exact ⟨rfl, rfl, by decide⟩

/-- C9, the defect. When the header of the first file names no language, the
test `len(langKeys) == 0` holds again at the second file, and the outputs handed
to the write phase are those of the second header. -/
theorem bare_first_header_adopts_second :
    (Split "Key".toList ",".toList).tail = []
      ∧ (setupWalk ",".toList (fun _ => true) bareHeaderCsvs [] [] []).exit = Exit.ok
      ∧ (setupWalk ",".toList (fun _ => true) bareHeaderCsvs [] [] []).allWrites.map Handle.lang
        = ["en".toList]
      ∧ (generateIOSKeys ",".toList (fun _ => true) bareHeaderCsvs).allWrites.map Handle.lang
        = ["en".toList]
      ∧ (generateIOSKeys ",".toList (fun _ => true) bareHeaderCsvs).texts
        = ["\n/* a.csv */\n\n/* b.csv */\n\"hello\" = \"Hello\";\n".toList] := by
  decide

/-! ## Reading written text back: the scanner -/

theorem splitNL_line {l : Str} (rest : Str) (h : '\n' ∉ l) :
    splitNL (l ++ '\n' :: rest) = l :: splitNL rest := by
  induction l with
  | nil => simp [splitNL]
  | cons c l ih =>
    have hc : c ≠ '\n' := fun e => h (by simp [e])
    have := ih (fun hm => h (by simp [hm]))
    show splitNL (c :: (l ++ '\n' :: rest)) = _
    rw [splitNL, if_neg hc, this]

theorem splitNL_lines (ls : List Str) (h : ∀ l ∈ ls, '\n' ∉ l) :
    splitNL (ls.flatMap (fun l => l ++ ['\n'])) = ls ++ [[]] := by
  induction ls with
  | nil => rfl
  | cons l ls ih =>
    rw [List.flatMap_cons, List.append_assoc, List.singleton_append,
      splitNL_line _ (h l (by simp)), ih (fun x hx => h x (by simp [hx]))]
    rfl

/-- The scanner gives back the lines of a text made of newline-terminated lines,
each without its trailing carriage return. -/
theorem scanLines_lines (ls : List Str) (h : ∀ l ∈ ls, '\n' ∉ l) :
    scanLines (ls.flatMap (fun l => l ++ ['\n'])) = ls.map dropCR := by
  unfold scanLines
  simp only [splitNL_lines ls h]
  simp

theorem dropCR_of_last (s : Str) (z : Char) (hz : z ≠ '\r') : dropCR (s ++ [z]) = s ++ [z] := by
  unfold dropCR
  have : HasSuffix (s ++ [z]) ['\r'] = false := by
    cases h : HasSuffix (s ++ [z]) ['\r'] with
    | false => rfl
    | true =>
      obtain ⟨t, ht⟩ := (HasSuffix_iff _ _).mp h
      have := List.append_inj' ht rfl
      simp at this
      exact absurd this.2.symm hz
  rw [this]
  rfl

/-! ## Trimming -/

theorem TrimSpace_between (a z : Char) (mid : Str) (ha : isSpace a = false)
    (hz : isSpace z = false) : TrimSpace (a :: (mid ++ [z])) = a :: (mid ++ [z]) := by
  unfold TrimSpace
  rw [List.dropWhile_cons_of_neg (by simp [ha]), ← List.cons_append,
    List.rdropWhile_concat_neg _ _ _ (by simp [hz])]

theorem dropWhile_not_head (p : Char → Bool) (s : Str)
    (h : ∀ c t, s = c :: t → p c = false) : s.dropWhile p = s := by
  cases s with
  | nil => rfl
  | cons c t => rw [List.dropWhile_cons_of_neg (by simp [h c t rfl])]

theorem rdropWhile_not_last (p : Char → Bool) (s : Str)
    (h : ∀ c t, s = t ++ [c] → p c = false) : s.rdropWhile p = s := by
  rcases List.eq_nil_or_concat s with hs | ⟨t, c, hs⟩
  · subst hs; rfl
  · rw [List.concat_eq_append] at hs
    subst hs
    rw [List.rdropWhile_concat_neg _ _ _ (by simp [h c t rfl])]

/-- `Trim` with the cutset `"` gives back a string put between two quotes when
the string itself neither begins nor ends with a quote. -/
theorem Trim_quoted (s : Str) (hb : ¬ ['"'] <+: s) (he : ¬ ['"'] <:+ s) :
    Trim ('"' :: (s ++ ['"'])) ['"'] = s := by
  unfold Trim
  have hq : (fun c => (['"'] : Str).contains c) '"' = true := by decide
  rw [← List.cons_append, List.rdropWhile_concat_pos _ _ _ hq]
  have hlast : ∀ c t, s = t ++ [c] → (['"'] : Str).contains c = false := by
    intro c t hs
    cases hc : (['"'] : Str).contains c with
    | false => rfl
    | true =>
      have : c = '"' := by simpa using hc
      exact absurd ⟨t, by rw [hs, this]⟩ he
  have hhead : ∀ c t, s = c :: t → (['"'] : Str).contains c = false := by
    intro c t hs
    cases hc : (['"'] : Str).contains c with
    | false => rfl
    | true =>
      have : c = '"' := by simpa using hc
      exact absurd ⟨t, by rw [hs, this]; rfl⟩ hb
  cases s with
  | nil => decide
  | cons x s =>
    have h1 : ('"' :: x :: s).rdropWhile (fun c => (['"'] : Str).contains c) = '"' :: x :: s := by
      apply rdropWhile_not_last
      intro c t hs
      rcases List.eq_nil_or_concat (x :: s) with hn | ⟨t', c', hs'⟩
      · cases hn
      · rw [List.concat_eq_append] at hs'
        rw [hs', ← List.cons_append] at hs
        have := List.append_inj' hs rfl
        simp at this
        rw [← this.2]
        exact hlast c' t' hs'
    rw [h1, List.dropWhile_cons_of_pos hq]
    exact dropWhile_not_head _ _ hhead

theorem TrimSuffix_concat (s : Str) (c : Char) : TrimSuffix (s ++ [c]) [c] = s := by
  unfold TrimSuffix
  have : HasSuffix (s ++ [c]) [c] = true := (HasSuffix_iff _ _).mpr ⟨s, rfl⟩
  rw [this]
  simp

/-! ## Maps built by successive assignments -/

theorem mapSet_of_not_mem {V : Type} (m : GoMap V) (k : Str) (v : V) (h : k ∉ mapKeys m) :
    mapSet m k v = m ++ [(k, v)] := by
  induction m with
  | nil => rfl
  | cons p m ih =>
    obtain ⟨a, b⟩ := p
    rw [mapKeys_cons, List.mem_cons, not_or] at h
    have ha : ¬ a = k := fun e => h.1 e.symm
    show mapSet ((a, b) :: m) k v = (a, b) :: (m ++ [(k, v)])
    rw [mapSet, if_neg ha, ih h.2]

theorem mapSet_last {V : Type} (m : GoMap V) (k : Str) (v v' : V) (h : k ∉ mapKeys m) :
    mapSet (m ++ [(k, v)]) k v' = m ++ [(k, v')] := by
  induction m with
  | nil => simp [mapSet]
  | cons p m ih =>
    obtain ⟨a, b⟩ := p
    rw [mapKeys_cons, List.mem_cons, not_or] at h
    have ha : ¬ a = k := fun e => h.1 e.symm
    show mapSet ((a, b) :: (m ++ [(k, v)])) k v' = (a, b) :: (m ++ [(k, v')])
    rw [mapSet, if_neg ha, ih h.2]

theorem mapKeys_append {V : Type} (m m' : GoMap V) :
    mapKeys (m ++ m') = mapKeys m ++ mapKeys m' := List.map_append _ _ _

theorem foldl_mapSet_fresh {V : Type} (ps : List (Str × V)) (m : GoMap V)
    (h : (mapKeys m ++ mapKeys ps).Nodup) :
    ps.foldl (fun b p => mapSet b p.1 p.2) m = m ++ ps := by
  induction ps generalizing m with
  | nil => rw [List.foldl_nil, List.append_nil]
  | cons p ps ih =>
    obtain ⟨k, v⟩ := p
    rw [mapKeys_cons] at h
    have hk : k ∉ mapKeys m := fun hm =>
      (List.nodup_append.mp h).2.2 hm (List.mem_cons_self _ _)
    rw [List.foldl_cons, mapSet_of_not_mem m k v hk, ih]
    · rw [List.append_assoc]; rfl
    · rw [mapKeys_append, List.append_assoc]
      exact h

theorem mapGet_of_mem {V : Type} (m : GoMap V) (k : Str) (v : V) (hn : (mapKeys m).Nodup)
    (h : (k, v) ∈ m) : mapGet m k = some v := by
  induction m with
  | nil => cases h
  | cons p m ih =>
    obtain ⟨a, b⟩ := p
    rw [mapKeys_cons, List.nodup_cons] at hn
    rw [mapGet_cons]
    rcases List.mem_cons.mp h with h1 | h2
    · cases h1; rw [if_pos rfl]
    · have : k ≠ a := by
        intro e
        subst e
        exact hn.1 (List.mem_map.mpr ⟨(k, v), h2, rfl⟩)
      rw [if_neg this, ih hn.2 h2]

/-! ## Joining and splitting -/

theorem Join_nil (sep : Str) : Join [] sep = [] := rfl

theorem Join_singleton (a sep : Str) : Join [a] sep = a := by
  simp [Join, List.intercalate, List.intersperse]

theorem Join_cons_cons (a b sep : Str) (rest : List Str) :
    Join (a :: b :: rest) sep = a ++ sep ++ Join (b :: rest) sep := by
  simp [Join, List.intercalate, List.intersperse]

theorem mem_Join_empty (c : Char) (xs : List Str) (h : c ∈ Join xs []) :
    ∃ p ∈ xs, c ∈ p := by
  induction xs with
  | nil => simp [Join_nil] at h
  | cons a xs ih =>
    cases xs with
    | nil =>
      rw [Join_singleton] at h
      exact ⟨a, by simp, h⟩
    | cons b rest =>
      rw [Join_cons_cons, List.append_nil, List.mem_append] at h
      rcases h with h | h
      · exact ⟨a, by simp, h⟩
      · obtain ⟨p, hp, hc⟩ := ih h
        exact ⟨p, List.mem_cons_of_mem _ hp, hc⟩

/-- The part before a cut at a one-character separator does not contain it. -/
theorem cutFirst_single_left {c : Char} {s a b : Str} (h : cutFirst [c] s = some (a, b)) :
    c ∉ a := by
  induction s generalizing a with
  | nil => simp [cutFirst] at h
  | cons x s ih =>
    rw [cutFirst] at h
    split_ifs at h with hp
    · cases h; simp
    · cases hc : cutFirst [c] s with
      | none => rw [hc] at h; cases h
      | some p =>
        obtain ⟨a', b'⟩ := p
        rw [hc] at h
        cases h
        have hx : c ≠ x := by
          intro e
          apply hp
          rw [HasPrefix_iff, e]
          exact ⟨s, rfl⟩
        intro hm
        rcases List.mem_cons.mp hm with e | hm'
        · exact hx e
        · exact ih hc hm'

theorem cutFirst_single_none {c : Char} {s : Str} (h : cutFirst [c] s = none) : c ∉ s := by
  intro hm
  obtain ⟨a, b, hs⟩ := List.append_of_mem hm
  exact (cutFirst_none_iff _ _).mp h ⟨a, b, by rw [hs]; simp⟩

theorem cutFirst_length {sep s a b : Str} (h : cutFirst sep s = some (a, b)) :
    a.length + sep.length + b.length = s.length := by
  rw [cutFirst_some h]
  simp only [List.length_append]

/-- The pieces of a split at a one-character separator do not contain it. -/
theorem splitLoop_single_pieces (c : Char) (k : Nat) (s : Str) (hk : s.length ≤ k) :
    ∀ p ∈ splitLoop [c] k s, c ∉ p := by
  induction k generalizing s with
  | zero =>
    have : s = [] := List.length_eq_zero.mp (by omega)
    subst this
    simp [splitLoop]
  | succ k ih =>
    rw [splitLoop]
    cases hc : cutFirst [c] s with
    | none =>
      intro p hp
      simp only [List.mem_singleton] at hp
      subst hp
      exact cutFirst_single_none hc
    | some q =>
      obtain ⟨a, rest⟩ := q
      intro p hp
      simp only [List.mem_cons] at hp
      have hl := cutFirst_length hc
      simp only [List.length_singleton] at hl
      rcases hp with hp | hp
      · subst hp; exact cutFirst_single_left hc
      · exact ih rest (by omega) p hp

theorem Split_single_pieces (c : Char) (s : Str) : ∀ p ∈ Split s [c], c ∉ p := by
  unfold Split
  simp only [List.cons_ne_nil, if_false]
  exact splitLoop_single_pieces c s.length s (le_refl _)

/-- A key has no space left after `strings.ReplaceAll(key, " ", "")`. -/
theorem ReplaceAll_space_free (s : Str) : ' ' ∉ ReplaceAll s [' '] [] := by
  unfold ReplaceAll
  simp only [List.cons_ne_nil, if_false]
  intro h
  obtain ⟨p, hp, hc⟩ := mem_Join_empty _ _ h
  exact Split_single_pieces ' ' s p hp hc

theorem rowKey_space_free (delimiter row : Str) : ' ' ∉ rowKey delimiter row :=
  ReplaceAll_space_free _

/-! ## The line parser on written lines -/

theorem parseKV_empty : parseKV [] = none := by decide

theorem parseKV_markerText (name : Str) : parseKV (markerText name) = none := by
  have h : markerText name = '/' :: (('*' :: ' ' :: (name ++ [' ', '*'])) ++ ['/']) := by
    simp [markerText]
  have ht : TrimSpace (markerText name) = markerText name := by
    rw [h]
    exact TrimSpace_between _ _ _ (by decide) (by decide)
  have hp : HasPrefix (markerText name) "/*".toList = true := by
    rw [HasPrefix_iff, h]
    exact ⟨' ' :: (name ++ [' ', '*']) ++ ['/'], by simp⟩
  unfold parseKV
  simp only [ht, hp]
  simp

/-- A written key/value line is parsed back to its key and value when the key
has no space and neither of them begins or ends with a quote. -/
theorem parseKV_kvText (key value : Str) (hsp : ' ' ∉ key)
    (hkb : ¬ ['"'] <+: key) (hke : ¬ ['"'] <:+ key)
    (hvb : ¬ ['"'] <+: value) (hve : ¬ ['"'] <:+ value) :
    parseKV (kvText key value) = some (key, value) := by
  have h : kvText key value
      = ('"' :: (key ++ ['"'])) ++ ' ' :: (['=', ' '] ++ (('"' :: (value ++ ['"'])) ++ [';'])) := by
    simp [kvText]
  have h' : kvText key value
      = '"' :: ((key ++ ['"'] ++ ' ' :: (['=', ' '] ++ ('"' :: (value ++ ['"'])))) ++ [';']) := by
    simp [kvText]
  have ht : TrimSpace (kvText key value) = kvText key value := by
    rw [h']
    exact TrimSpace_between _ _ _ (by decide) (by decide)
  have hne : kvText key value ≠ [] := by rw [h']; simp
  have hp1 : HasPrefix (kvText key value) "/*".toList = false := by
    cases hh : HasPrefix (kvText key value) "/*".toList with
    | false => rfl
    | true =>
      obtain ⟨t, ht⟩ := (HasPrefix_iff _ _).mp hh
      rw [h'] at ht
      simp at ht
  have hp2 : HasPrefix (kvText key value) "//".toList = false := by
    cases hh : HasPrefix (kvText key value) "//".toList with
    | false => rfl
    | true =>
      obtain ⟨t, ht⟩ := (HasPrefix_iff _ _).mp hh
      rw [h'] at ht
      simp at ht
  have hcut : cutFirst " = ".toList (kvText key value)
      = some ('"' :: (key ++ ['"']), ('"' :: (value ++ ['"'])) ++ [';']) := by
    rw [h]
    exact cutFirst_append _ (by simp [hsp])
  unfold parseKV
  simp only [ht, hp1, hp2, hne, decide_False, Bool.or_self, Bool.false_eq_true, if_false]
  rw [SplitN2_eq, hcut]
  simp only []
  rw [show ";".toList = [';'] from rfl, TrimSuffix_concat,
    show "\"".toList = ['"'] from rfl, Trim_quoted key hkb hke, Trim_quoted value hvb hve]

/-! ## From a table to bundles and back -/

theorem plainField_iff (f : Str) :
    plainField f = true ↔ '\n' ∉ f ∧ ¬ ['"'] <+: f ∧ ¬ ['"'] <:+ f := by
  unfold plainField
  rw [Bool.and_eq_true, Bool.and_eq_true, show "\"".toList = ['"'] from rfl]
  simp only [Bool.not_eq_true', ← Bool.not_eq_true, HasPrefix_iff, HasSuffix_iff]
  simp [and_assoc]

theorem kvLine_eq (key value : Str) : kvLine key value = kvText key value ++ ['\n'] := by
  simp [kvLine, kvText]

theorem marker_eq (name : Str) : marker name = ([] ++ ['\n']) ++ (markerText name ++ ['\n']) := by
  simp [marker, markerText]

theorem bundleLines_plain (delimiter : Str) (rows : List Str) (j : Nat)
    (hc : ∀ row ∈ rows, isComment delimiter row = false) :
    bundleLines delimiter rows j
      = (rows.map (fun row => kvText (rowKey delimiter row) (rowValue delimiter row j))).flatMap
          (fun l => l ++ ['\n']) := by
  induction rows with
  | nil => rfl
  | cons row rows ih =>
    rw [bundleLines_cons, hc row (by simp), ih (fun r hr => hc r (by simp [hr]))]
    simp [kvLine_eq]

/-- The lines a scanner yields for the block of a file without comment rows. -/
theorem scanLines_fileBlock (delimiter : Str) (file : CsvFile) (j : Nat)
    (hname : '\n' ∉ file.name)
    (hc : ∀ row ∈ file.lines.drop 1, isComment delimiter row = false)
    (hk : ∀ row ∈ file.lines.drop 1, '\n' ∉ rowKey delimiter row)
    (hv : ∀ row ∈ file.lines.drop 1, '\n' ∉ rowValue delimiter row j) :
    scanLines (fileBlock delimiter file j)
      = [] :: markerText file.name :: (file.lines.drop 1).map
          (fun row => kvText (rowKey delimiter row) (rowValue delimiter row j)) := by
  have hform : fileBlock delimiter file j
      = ([] :: markerText file.name :: (file.lines.drop 1).map
          (fun row => kvText (rowKey delimiter row) (rowValue delimiter row j))).flatMap
          (fun l => l ++ ['\n']) := by
    rw [fileBlock, bundleLines_plain _ _ _ hc, marker_eq]
    simp
  have hkv : ∀ k v : Str, '\n' ∉ k → '\n' ∉ v → '\n' ∉ kvText k v := by
    intro k v h1 h2
    simp [kvText, h1, h2]
  have hm : '\n' ∉ markerText file.name := by simp [markerText, hname]
  rw [hform, scanLines_lines]
  · have hkvcr : ∀ k v : Str, dropCR (kvText k v) = kvText k v := by
      intro k v
      have : kvText k v = ('"' :: (k ++ ('"' :: ' ' :: '=' :: ' ' :: '"' :: (v ++ ['"'])))) ++ [';'] := by
        simp [kvText]
      rw [this]
      exact dropCR_of_last _ _ (by decide)
    have hmcr : dropCR (markerText file.name) = markerText file.name := by
      have : markerText file.name = ('/' :: '*' :: ' ' :: (file.name ++ [' ', '*'])) ++ ['/'] := by
        simp [markerText]
      rw [this]
      exact dropCR_of_last _ _ (by decide)
    have h0 : dropCR [] = [] := by decide
    simp only [List.map_cons, h0, hmcr, List.map_map]
    congr 2
    apply List.map_congr_left
    intro row _
    exact hkvcr _ _
  · intro l hl
    simp only [List.mem_cons, List.mem_map] at hl
    rcases hl with hl | hl | ⟨row, hrow, hl⟩
    · subst hl; simp
    · subst hl; exact hm
    · subst hl; exact hkv _ _ (hk row hrow) (hv row hrow)

/-- The bundle parsed from the block of a file: one entry per data row, in file
order. -/
theorem parseBundle_fileBlock (delimiter : Str) (file : CsvFile) (j : Nat)
    (hname : '\n' ∉ file.name)
    (hc : ∀ row ∈ file.lines.drop 1, isComment delimiter row = false)
    (hkeys : ((file.lines.drop 1).map (rowKey delimiter)).Nodup)
    (hk : ∀ row ∈ file.lines.drop 1, plainField (rowKey delimiter row) = true)
    (hv : ∀ row ∈ file.lines.drop 1, plainField (rowValue delimiter row j) = true) :
    parseBundle (fileBlock delimiter file j)
      = (file.lines.drop 1).map (fun row => (rowKey delimiter row, rowValue delimiter row j)) := by
  unfold parseBundle
  rw [scanLines_fileBlock delimiter file j hname hc
    (fun row hr => ((plainField_iff _).mp (hk row hr)).1)
    (fun row hr => ((plainField_iff _).mp (hv row hr)).1)]
  rw [List.foldl_cons, List.foldl_cons]
  have h1 : parseLine [] [] = [] := by decide
  have h2 : parseLine [] (markerText file.name) = [] := by
    simp [parseLine, parseKV_markerText]
  rw [h1, h2]
  have hfold : ∀ (rows : List Str) (b : Bundle),
      (∀ row ∈ rows, plainField (rowKey delimiter row) = true) →
      (∀ row ∈ rows, plainField (rowValue delimiter row j) = true) →
      (rows.map (fun row =>
          kvText (rowKey delimiter row) (rowValue delimiter row j))).foldl parseLine b
        = (rows.map (fun row => (rowKey delimiter row, rowValue delimiter row j))).foldl
            (fun b p => mapSet b p.1 p.2) b := by
    intro rows
    induction rows with
    | nil => intros; rfl
    | cons row rows ih =>
      intro b hk' hv'
      have hkr := (plainField_iff _).mp (hk' row (by simp))
      have hvr := (plainField_iff _).mp (hv' row (by simp))
      have hp := parseKV_kvText (rowKey delimiter row) (rowValue delimiter row j)
        (rowKey_space_free _ _) hkr.2.1 hkr.2.2 hvr.2.1 hvr.2.2
      simp only [List.map_cons, List.foldl_cons]
      rw [show parseLine b (kvText (rowKey delimiter row) (rowValue delimiter row j))
          = mapSet b (rowKey delimiter row) (rowValue delimiter row j) by
        simp [parseLine, hp]]
      exact ih _ (fun r hr => hk' r (by simp [hr])) (fun r hr => hv' r (by simp [hr]))
  rw [hfold _ _ hk hv, foldl_mapSet_fresh]
  · rfl
  · simpa [mapKeys, Function.comp_def] using hkeys

/-- The walk over directories of pairwise different languages, none of them
recorded yet, each with a strings file read without error: every directory adds
its language and its parsed bundle. -/
theorem walkBundles_fresh (ds : List (Str × List Str)) (st : Localized)
    (h : (mapKeys st.languages ++ ds.map Prod.fst).Nodup) :
    walkBundles st (ds.map (fun p => ⟨p.1, StringsFile.content p.2 false⟩))
      = Except.ok ⟨st.languages ++ ds.map (fun p => (p.1, p.2.foldl parseLine [])),
          st.languageOrder ++ ds.map Prod.fst⟩ := by
  induction ds generalizing st with
  | nil => simp [walkBundles]
  | cons p ds ih =>
    obtain ⟨lang, ls⟩ := p
    have hl : lang ∉ mapKeys st.languages := fun hm =>
      (List.nodup_append.mp h).2.2 hm (by simp)
    simp only [List.map_cons, walkBundles, visitBundle_content]
    rw [mapSet_of_not_mem _ _ _ hl, mapSet_last _ _ _ _ hl, ih]
    · simp
    · simp only [mapKeys_append, List.append_assoc]
      simpa [mapKeys] using h

/-- The texts `processCSVToIOS` produces from empty outputs when every data row
has a value for every output: output `j` holds the block of the file. -/
theorem processCSVToIOS_fresh {α : Type} (delimiter : Str) (file : CsvFile) (ws : List α)
    (hread : file.readable = true) (hscan : file.scanErr = false) (hne : ws ≠ [])
    (hrows : ∀ row ∈ file.lines.drop 1, ws.length ≤ (Split row delimiter).tail.length) :
    (processCSVToIOS delimiter file (ws.map (fun _ => []))).1.length = ws.length
      ∧ ∀ j, j < ws.length →
        (processCSVToIOS delimiter file (ws.map (fun _ => []))).1[j]?
          = some (fileBlock delimiter file j) := by
  have hne' : (ws.map (fun _ => ([] : Str))).map (fun w => w ++ marker file.name) ≠ [] := by
    simpa using hne
  have hok := processRows_enough delimiter (file.lines.drop 1) _ hne' (by simpa using hrows)
  have hcall : processCSVToIOS delimiter file (ws.map (fun _ => []))
      = ((processCSVToIOS delimiter file (ws.map (fun _ => []))).1, Exit.ok) := by
    unfold processCSVToIOS
    rw [hread, hscan]
    simp only [if_true]
    cases hp : processRows delimiter ((ws.map (fun _ => ([] : Str))).map
        (fun w => w ++ marker file.name)) (file.lines.drop 1) with
    | mk outs1 ok =>
      rw [hp] at hok
      simp only [] at hok
      subst hok
      rfl
  have h := processCSVToIOS_ok _ _ _ _ hcall
  refine ⟨h.1.trans (List.length_map _ _), ?_⟩
  intro j hj
  have hget : (ws.map (fun _ => ([] : Str)))[j]? = some [] := by
    rw [List.getElem?_map, List.getElem?_eq_getElem hj]; rfl
  have := h.2 j [] hget
  rw [List.nil_append] at this
  exact this

theorem rowValue_mem (delimiter row : Str) (j n : Nat)
    (hlen : (Split row delimiter).length = n + 1) (hj : j < n) :
    rowValue delimiter row j ∈ (Split row delimiter).tail := by
  unfold rowValue
  have hl : j < (Split row delimiter).tail.length := by
    rw [List.length_tail, hlen]
    exact hj
  rw [List.getD_eq_getElem _ _ hl]
  exact List.getElem_mem _

/-- At a one-character separator, joining fields that do not contain it and
splitting again gives the fields back, with any fuel that covers the text. -/
theorem splitLoop_Join (c : Char) (out : List Str) (hne : out ≠ [])
    (hc : ∀ f ∈ out, c ∉ f) (k : Nat) (hk : (Join out [c]).length ≤ k) :
    splitLoop [c] k (Join out [c]) = out := by
  induction out generalizing k with
  | nil => exact absurd rfl hne
  | cons a out ih =>
    cases out with
    | nil =>
      rw [Join_singleton]
      have hn : cutFirst [c] a = none :=
        (cutFirst_none_iff _ _).mpr (fun ⟨s, t, hst⟩ => hc a (by simp) (by rw [← hst]; simp))
      cases k with
      | zero => rfl
      | succ k => rw [splitLoop, hn]
    | cons b rest =>
      rw [Join_cons_cons] at hk ⊢
      have hcut : cutFirst [c] (a ++ [c] ++ Join (b :: rest) [c])
          = some (a, Join (b :: rest) [c]) := by
        have := @cutFirst_append c [] a (Join (b :: rest) [c]) (hc a (by simp))
        simpa using this
      cases k with
      | zero => simp at hk
      | succ k =>
        rw [splitLoop, hcut]
        simp only []
        rw [ih (by simp) (fun f hf => hc f (by simp [hf])) k (by simp at hk ⊢; omega)]

theorem Split_Join (c : Char) (out : List Str) (hne : out ≠ []) (hc : ∀ f ∈ out, c ∉ f) :
    Split (Join out [c]) [c] = out := by
  unfold Split
  simp only [List.cons_ne_nil, if_false]
  exact splitLoop_Join c out hne hc _ (le_refl _)

theorem mem_of_cutFirst {sep s a b : Str} (h : cutFirst sep s = some (a, b)) :
    (∀ x ∈ a, x ∈ s) ∧ (∀ x ∈ b, x ∈ s) := by
  rw [cutFirst_some h]
  constructor <;> intro x hx <;> simp [hx]

theorem mem_of_splitLoop (sep : Str) (k : Nat) (s : Str) :
    ∀ p ∈ splitLoop sep k s, ∀ x ∈ p, x ∈ s := by
  induction k generalizing s with
  | zero => intro p hp; simp only [splitLoop, List.mem_singleton] at hp; subst hp; exact fun _ h => h
  | succ k ih =>
    rw [splitLoop]
    cases hc : cutFirst sep s with
    | none => intro p hp; simp only [List.mem_singleton] at hp; subst hp; exact fun _ h => h
    | some q =>
      obtain ⟨a, rest⟩ := q
      intro p hp x hx
      simp only [List.mem_cons] at hp
      rcases hp with hp | hp
      · subst hp; exact (mem_of_cutFirst hc).1 x hx
      · exact (mem_of_cutFirst hc).2 x (ih rest p hp x hx)

/-- Removing the spaces of a field adds no character to it. -/
theorem mem_of_ReplaceAll_space (s : Str) (x : Char) (h : x ∈ ReplaceAll s [' '] []) :
    x ∈ s := by
  unfold ReplaceAll at h
  simp only [List.cons_ne_nil, if_false] at h
  obtain ⟨p, hp, hx⟩ := mem_Join_empty _ _ h
  unfold Split at hp
  simp only [List.cons_ne_nil, if_false] at hp
  exact mem_of_splitLoop _ _ _ p hp x hx

theorem rowKey_single_free (c : Char) (row : Str) : c ∉ rowKey [c] row := by
  intro h
  unfold rowKey at h
  have hx := mem_of_ReplaceAll_space _ _ h
  cases hs : Split row [c] with
  | nil => rw [hs] at hx; simp at hx
  | cons p0 rest =>
    rw [hs] at hx
    simp only [List.headD_cons] at hx
    exact Split_single_pieces c row p0 (by rw [hs]; simp) hx

/-- C1 as stated fails in two ways. A file name with line breaks puts a line of
its own into every bundle: the file below satisfies every condition of the claim,
and the table read back has the row `zz`, which is no key of the input. And with
a header that names no language there is no bundle at all, so the key `hello` of
the input is missing from the table read back. -/
theorem round_trip_counterexample :
    (Split "Key,en".toList ",".toList = ["Key".toList, "en".toList]
      ∧ (∀ row ∈ breakNameCsv.lines.drop 1,
          (Split row ",".toList).length = 1 + 1 ∧ isComment ",".toList row = false
          ∧ plainField (rowKey ",".toList row) = true
          ∧ ∀ v ∈ (Split row ",".toList).tail, plainField v = true)
      ∧ (breakNameCsv.lines.drop 1).map (rowKey ",".toList) = ["hello".toList]
      ∧ ConvertToCSV ",".toList
          [⟨"en".toList, StringsFile.content
            (scanLines ((processCSVToIOS ",".toList breakNameCsv [[]]).1.headD [])) false⟩]
        = Except.ok "Key,en\nhello,Hello\nzz,1\n".toList)
    ∧ (Split "Key".toList ",".toList = ["Key".toList]
      ∧ (∀ row ∈ noLanguageCsv.lines.drop 1,
          (Split row ",".toList).length = 0 + 1 ∧ isComment ",".toList row = false
          ∧ plainField (rowKey ",".toList row) = true)
      ∧ (noLanguageCsv.lines.drop 1).map (rowKey ",".toList) = ["hello".toList]
      ∧ (processCSVToIOS ",".toList noLanguageCsv []).1 = []
      ∧ ConvertToCSV ",".toList [] = Except.ok "Key\n".toList) := by
  refine ⟨⟨by decide, by decide, by decide, rfl⟩, by decide, by decide, by decide, by decide, rfl⟩

/-- C1, amended. Take a file whose name has no line break, whose header is a
label followed by at least one language, all different, and whose data rows each
have one value per language, with keys (spaces removed) that are pairwise
different, do not start with `//`, and with keys and values that contain no line
break and neither begin nor end with a double quote. Convert it with
`processCSVToIOS`, scan every output into lines, and read the bundles in any
discovery order with `readLocalizedFiles`. Then the read succeeds, and in the rows
`writeCSV` writes: the keys are the keys of the input in strictly ascending
order; the field of a key under a language is the value of the input row under
that language; and, for a one-character delimiter, every written row splits
back into exactly these fields. -/
theorem round_trip (delimiter header label : Str) (file : CsvFile) (langs rows : List Str)
    (disc : List (Str × Str))
    (hread : file.readable = true) (hscan : file.scanErr = false)
    (hlines : file.lines = header :: rows)
    (hname : '\n' ∉ file.name)
    (hheader : Split header delimiter = label :: langs)
    (hlangs : langs.Nodup) (hn : langs ≠ [])
    (hrows : ∀ row ∈ rows, (Split row delimiter).length = langs.length + 1)
    (hkeys : (rows.map (rowKey delimiter)).Nodup)
    (hcomment : ∀ row ∈ rows, isComment delimiter row = false)
    (hplain : ∀ row ∈ rows, plainField (rowKey delimiter row) = true
      ∧ ∀ v ∈ (Split row delimiter).tail, plainField v = true)
    (hdisc : disc.Perm
      (langs.zip (processCSVToIOS delimiter file (langs.map (fun _ => []))).1)) :
    ∃ r, readLocalizedFiles
          (disc.map (fun lt => ⟨lt.1, StringsFile.content (scanLines lt.2) false⟩))
        = Except.ok r
      ∧ r.languageOrder = disc.map Prod.fst
      ∧ (csvRows r.languages r.languageOrder).map List.head?
        = (sortStrings (rows.map (rowKey delimiter))).map some
      ∧ (sortStrings (rows.map (rowKey delimiter))).Pairwise (fun a b => strLt a b = true)
      ∧ (∀ k, k ∈ sortStrings (rows.map (rowKey delimiter)) ↔
          ∃ row ∈ rows, rowKey delimiter row = k)
      ∧ (∀ row ∈ rows, ∀ (j p : Nat) (lang : Str),
          langs[j]? = some lang → r.languageOrder[p]? = some lang →
          csvRow r.languages r.languageOrder (rowKey delimiter row)
              ∈ csvRows r.languages r.languageOrder
            ∧ (csvRow r.languages r.languageOrder (rowKey delimiter row))[p + 1]?
              = some (rowValue delimiter row j))
      ∧ (∀ c, delimiter = [c] → ∀ out ∈ csvRows r.languages r.languageOrder,
          Split (Join out delimiter) delimiter = out) := by
  -- the texts of the outputs
  have hdrop : file.lines.drop 1 = rows := by rw [hlines]; rfl
  have htexts := processCSVToIOS_fresh delimiter file langs hread hscan hn (by
    rw [hdrop]
    intro row hrow
    rw [List.length_tail, hrows row hrow]
    simp)
  generalize (processCSVToIOS delimiter file (langs.map (fun _ => []))).1 = texts
    at htexts hdisc
  obtain ⟨hlen, hget⟩ := htexts
  -- the bundle parsed from output `j`
  have hbundle : ∀ j, j < langs.length → parseBundle (fileBlock delimiter file j)
      = rows.map (fun row => (rowKey delimiter row, rowValue delimiter row j)) := by
    intro j hj
    have := parseBundle_fileBlock delimiter file j hname (by rw [hdrop]; exact hcomment)
      (by rw [hdrop]; exact hkeys) (by rw [hdrop]; exact fun row hr => (hplain row hr).1)
      (by
        rw [hdrop]
        intro row hr
        exact (hplain row hr).2 _ (rowValue_mem delimiter row j langs.length (hrows row hr) hj))
    rw [this, hdrop]
  -- the pairs of a language and its text
  have hzip_fst : (langs.zip texts).map Prod.fst = langs :=
    List.map_fst_zip _ _ (by omega)
  have hzip_mem : ∀ l t, (l, t) ∈ langs.zip texts ↔
      ∃ j, langs[j]? = some l ∧ t = fileBlock delimiter file j := by
    intro l t
    rw [List.mem_iff_getElem?]
    constructor
    · rintro ⟨j, hj⟩
      rw [List.getElem?_zip_eq_some] at hj
      have hjl : j < langs.length := by
        rcases Nat.lt_or_ge j langs.length with h | h
        · exact h
        · rw [List.getElem?_eq_none h] at hj; cases hj.1
      have := hget j hjl
      rw [hj.2] at this
      exact ⟨j, hj.1, Option.some.inj this⟩
    · rintro ⟨j, hj, rfl⟩
      have hjl : j < langs.length := by
        rcases Nat.lt_or_ge j langs.length with h | h
        · exact h
        · rw [List.getElem?_eq_none h] at hj; cases hj
      exact ⟨j, by rw [List.getElem?_zip_eq_some]; exact ⟨hj, hget j hjl⟩⟩
  have hdisc_fst : (disc.map Prod.fst).Perm langs := by
    rw [← hzip_fst]
    exact hdisc.map _
  have hdisc_nodup : (disc.map Prod.fst).Nodup := hdisc_fst.nodup_iff.mpr hlangs
  -- the read
  have hwalk := walkBundles_fresh (disc.map (fun lt => (lt.1, scanLines lt.2))) ⟨[], []⟩
    (by simpa [mapKeys, Function.comp_def] using hdisc_nodup)
  simp only [List.map_map, Function.comp_def, List.nil_append] at hwalk
  refine ⟨_, hwalk, rfl, ?_⟩
  simp only []
  generalize hL : disc.map (fun lt => (lt.1, (scanLines lt.2).foldl parseLine [])) = L
  have hLmem : ∀ lang bundle, (lang, bundle) ∈ L ↔
      ∃ j, langs[j]? = some lang
        ∧ bundle = rows.map (fun row => (rowKey delimiter row, rowValue delimiter row j)) := by
    intro lang bundle
    rw [← hL, List.mem_map]
    constructor
    · rintro ⟨⟨l, t⟩, hmem, heq⟩
      simp only [Prod.mk.injEq] at heq
      obtain ⟨j, hj, ht⟩ := (hzip_mem l t).mp (hdisc.mem_iff.mp hmem)
      have hjl : j < langs.length := by
        rcases Nat.lt_or_ge j langs.length with h | h
        · exact h
        · rw [List.getElem?_eq_none h] at hj; cases hj
      refine ⟨j, by rw [← heq.1]; exact hj, ?_⟩
      rw [← heq.2, ht]
      exact hbundle j hjl
    · rintro ⟨j, hj, rfl⟩
      have hjl : j < langs.length := by
        rcases Nat.lt_or_ge j langs.length with h | h
        · exact h
        · rw [List.getElem?_eq_none h] at hj; cases hj
      refine ⟨(lang, fileBlock delimiter file j),
        hdisc.mem_iff.mpr ((hzip_mem _ _).mpr ⟨j, hj, rfl⟩), ?_⟩
      simp only [Prod.mk.injEq, true_and]
      exact hbundle j hjl
  have hLkeys : (mapKeys L).Nodup := by
    rw [← hL]
    simpa [mapKeys, Function.comp_def] using hdisc_nodup
  -- the keys
  have hmemkeys : ∀ k, k ∈ sortedKeys L ↔ k ∈ rows.map (rowKey delimiter) := by
    intro k
    rw [mem_sortedKeys]
    constructor
    · rintro ⟨lang, bundle, v, hl, hkv⟩
      obtain ⟨j, _, rfl⟩ := (hLmem lang bundle).mp hl
      obtain ⟨row, hrow, heq⟩ := List.mem_map.mp hkv
      simp only [Prod.mk.injEq] at heq
      exact List.mem_map.mpr ⟨row, hrow, heq.1⟩
    · intro hk
      obtain ⟨row, hrow, rfl⟩ := List.mem_map.mp hk
      obtain ⟨l0, rest, hl0⟩ := List.exists_cons_of_ne_nil hn
      refine ⟨l0, _, rowValue delimiter row 0,
        (hLmem l0 _).mpr ⟨0, by rw [hl0]; simp, rfl⟩, ?_⟩
      exact List.mem_map.mpr ⟨row, hrow, rfl⟩
  have hsorted : sortedKeys L = sortStrings (rows.map (rowKey delimiter)) :=
    strict_unique (sortedKeys_strict L) (sortStrings_strict hkeys)
      (fun k => by rw [hmemkeys, mem_sortStrings])
  -- the cells
  have hcell : ∀ row ∈ rows, ∀ (j : Nat) (lang : Str), langs[j]? = some lang →
      cell L lang (rowKey delimiter row) = rowValue delimiter row j := by
    intro row hrow j lang hj
    have h1 : mapGet L lang
        = some (rows.map (fun row => (rowKey delimiter row, rowValue delimiter row j))) :=
      mapGet_of_mem L lang _ hLkeys ((hLmem lang _).mpr ⟨j, hj, rfl⟩)
    have h2 : mapGet (rows.map (fun row => (rowKey delimiter row, rowValue delimiter row j)))
        (rowKey delimiter row) = some (rowValue delimiter row j) :=
      mapGet_of_mem _ _ _ (by simpa [mapKeys, Function.comp_def] using hkeys)
        (List.mem_map.mpr ⟨row, hrow, rfl⟩)
    simp [cell, h1, h2]
  refine ⟨?_, sortStrings_strict hkeys, ?_, ?_, ?_⟩
  · rw [csvRows_heads, hsorted]
  · intro k
    rw [mem_sortStrings, List.mem_map]
  · intro row hrow j p lang hj hp
    refine ⟨List.mem_map.mpr ⟨rowKey delimiter row, ?_, rfl⟩, ?_⟩
    · rw [hmemkeys]
      exact List.mem_map.mpr ⟨row, hrow, rfl⟩
    · simp only [csvRow, List.getElem?_cons_succ, List.getElem?_map, hp, Option.map_some']
      rw [hcell row hrow j lang hj]
  · intro c hc out hout
    subst hc
    obtain ⟨k, hk, rfl⟩ := List.mem_map.mp hout
    obtain ⟨row, hrow, rfl⟩ := List.mem_map.mp ((hmemkeys k).mp hk)
    apply Split_Join c _ (by simp [csvRow])
    intro f hf
    simp only [csvRow, List.mem_cons, List.mem_map] at hf
    rcases hf with rfl | ⟨lang, hlang, rfl⟩
    · exact rowKey_single_free c row
    · have hlang' : lang ∈ langs := hdisc_fst.mem_iff.mp (List.mem_map.mpr hlang)
      obtain ⟨j, hjl, hj⟩ := List.getElem_of_mem hlang'
      have hj' : langs[j]? = some lang := by rw [List.getElem?_eq_getElem hjl, hj]
      rw [hcell row hrow j lang hj']
      exact Split_single_pieces c row _
        (List.mem_of_mem_tail (rowValue_mem [c] row j langs.length (hrows row hrow) hjl))

/-- The statement of `round_trip` at the file of `TestConvertToIOS` with its rows
exchanged and the language `sv` found before `en`. -/
theorem round_trip_witness :
    ∃ r, readLocalizedFiles
          (shuffledDiscovery.map (fun lt => ⟨lt.1, StringsFile.content (scanLines lt.2) false⟩))
        = Except.ok r
      ∧ r.languageOrder = shuffledDiscovery.map Prod.fst
      ∧ (csvRows r.languages r.languageOrder).map List.head?
        = (sortStrings (shuffledRows.map (rowKey ",".toList))).map some
      ∧ (sortStrings (shuffledRows.map (rowKey ",".toList))).Pairwise
          (fun a b => strLt a b = true)
      ∧ (∀ k, k ∈ sortStrings (shuffledRows.map (rowKey ",".toList)) ↔
          ∃ row ∈ shuffledRows, rowKey ",".toList row = k)
      ∧ (∀ row ∈ shuffledRows, ∀ (j p : Nat) (lang : Str),
          ["en".toList, "sv".toList][j]? = some lang → r.languageOrder[p]? = some lang →
          csvRow r.languages r.languageOrder (rowKey ",".toList row)
              ∈ csvRows r.languages r.languageOrder
            ∧ (csvRow r.languages r.languageOrder (rowKey ",".toList row))[p + 1]?
              = some (rowValue ",".toList row j))
      ∧ (∀ c, ",".toList = [c] → ∀ out ∈ csvRows r.languages r.languageOrder,
          Split (Join out ",".toList) ",".toList = out) :=
  round_trip ",".toList "Key,en,sv".toList "Key".toList shuffledCsv
    ["en".toList, "sv".toList] shuffledRows shuffledDiscovery
    rfl rfl rfl (by decide) (by decide) (by decide) (by decide) (by decide) (by decide)
    (by decide) (by decide) (by decide)

/-! ## The write phase on every path, failures included -/

theorem writeRow_any (key : Str) (values : List Str) (i0 : Nat) (outs : List Str) :
    (writeRow key values i0 outs).1.length = outs.length ∧
      ∀ (j : Nat) (w : Str), outs[j]? = some w →
        (writeRow key values i0 outs).1[j]? = some w
          ∨ (writeRow key values i0 outs).1[j]?
              = some (w ++ kvLine key (values.getD (i0 + j) [])) := by
  induction outs generalizing i0 with
  | nil => simp [writeRow]
  | cons x outs ih =>
    rw [writeRow]
    cases hv : values.get? i0 with
    | none =>
      simp only []
      exact ⟨trivial, fun j w hj => Or.inl hj⟩
    | some v =>
      simp only []
      have ih' := ih (i0 + 1)
      refine ⟨by simp [ih'.1], ?_⟩
      intro j w hj
      cases j with
      | zero =>
        simp only [List.getElem?_cons_zero, Option.some.injEq] at hj
        subst hj
        have : values[i0]?.getD [] = v := by
          rw [← List.get?_eq_getElem?, hv]; rfl
        right
        simp [this]
      | succ j =>
        simp only [List.getElem?_cons_succ] at hj ⊢
        have : i0 + 1 + j = i0 + (j + 1) := by omega
        rw [← this]
        exact ih'.2 j w hj

theorem processRow_any (delimiter : Str) (outs : List Str) (row : Str) :
    (processRow delimiter outs row).1.length = outs.length ∧
      ∀ (j : Nat) (w : Str), outs[j]? = some w →
        (processRow delimiter outs row).1[j]? = some w
          ∨ (isComment delimiter row = false ∧ (processRow delimiter outs row).1[j]?
              = some (w ++ kvLine (rowKey delimiter row) (rowValue delimiter row j))) := by
  unfold processRow isComment rowKey rowValue
  generalize "//".toList = q
  generalize " ".toList = sp
  cases hs : Split row delimiter with
  | nil => exact ⟨rfl, fun j w hj => Or.inl hj⟩
  | cons p0 values =>
    simp only [List.headD_cons, List.tail_cons]
    by_cases hc : HasPrefix (ReplaceAll p0 sp []) q = true
    · rw [if_pos hc]
      exact ⟨rfl, fun j w hj => Or.inl hj⟩
    · rw [if_neg hc]
      have h := writeRow_any (ReplaceAll p0 sp []) values 0 outs
      refine ⟨h.1, fun j w hj => ?_⟩
      rcases h.2 j w hj with h' | h'
      · exact Or.inl h'
      · right
        refine ⟨by simpa using hc, ?_⟩
        simpa using h'

theorem bundleLines_take_succ (delimiter row : Str) (rows : List Str) (m j : Nat) :
    bundleLines delimiter ((row :: rows).take (m + 1)) j
      = (if isComment delimiter row then []
          else kvLine (rowKey delimiter row) (rowValue delimiter row j))
        ++ bundleLines delimiter (rows.take m) j := by
  rw [List.take_succ_cons, bundleLines_cons]

/-- However the scanner loop ends, every output has received the key/value lines
of the first rows of the file, up to some row. -/
theorem processRows_any (delimiter : Str) (rows : List Str) (outs : List Str) :
    (processRows delimiter outs rows).1.length = outs.length ∧
      ∀ (j : Nat) (w : Str), outs[j]? = some w →
        ∃ m, (processRows delimiter outs rows).1[j]?
          = some (w ++ bundleLines delimiter (rows.take m) j) := by
  induction rows generalizing outs with
  | nil =>
    refine ⟨rfl, fun j w hj => ⟨0, ?_⟩⟩
    simp [processRows, bundleLines, hj]
  | cons row rows ih =>
    rw [processRows]
    cases hr : processRow delimiter outs row with
    | mk outs1 ok =>
      cases ok with
      | true =>
        simp only []
        have h1 := processRow_spec _ _ _ _ hr
        have h2 := ih outs1
        refine ⟨h2.1.trans h1.1, fun j w hj => ?_⟩
        obtain ⟨m, hm⟩ := h2.2 j _ (h1.2 j w hj)
        exact ⟨m + 1, by rw [hm, bundleLines_take_succ, List.append_assoc]⟩
      | false =>
        simp only []
        have h1 := processRow_any delimiter outs row
        rw [hr] at h1
        refine ⟨h1.1, fun j w hj => ?_⟩
        rcases h1.2 j w hj with h' | ⟨hc, h'⟩
        · exact ⟨0, by simpa [bundleLines] using h'⟩
        · refine ⟨1, ?_⟩
          rw [h', bundleLines_take_succ, hc]
          simp [bundleLines]

/-- However `processCSVToIOS` ends, an output is either untouched, and then the
call did not return `nil`, or it has received the marker of the file and the
key/value lines of its first rows, up to some row. -/
theorem processCSVToIOS_any (delimiter : Str) (file : CsvFile) (outs : List Str) :
    (processCSVToIOS delimiter file outs).1.length = outs.length ∧
      ∀ (j : Nat) (w : Str), outs[j]? = some w →
        ((processCSVToIOS delimiter file outs).1[j]? = some w
            ∧ (processCSVToIOS delimiter file outs).2 ≠ Exit.ok)
          ∨ ∃ m, (processCSVToIOS delimiter file outs).1[j]?
            = some (w ++ (marker file.name
                ++ bundleLines delimiter ((file.lines.drop 1).take m) j)) := by
  unfold processCSVToIOS
  cases hr : file.readable with
  | false =>
    simp only [Bool.false_eq_true, if_false]
    exact ⟨trivial, fun j w hj => Or.inl ⟨hj, by simp⟩⟩
  | true =>
    simp only [if_true]
    have h := processRows_any delimiter (file.lines.drop 1)
      (outs.map (fun w => w ++ marker file.name))
    cases hp : processRows delimiter (outs.map (fun w => w ++ marker file.name))
        (file.lines.drop 1) with
    | mk outs1 ok =>
      rw [hp] at h
      have hres : ∀ e : Exit, ((outs1, e) : List Str × Exit).1 = outs1 := fun _ => rfl
      have key : outs1.length = outs.length ∧
          ∀ (j : Nat) (w : Str), outs[j]? = some w →
            ∃ m, outs1[j]? = some (w ++ (marker file.name
              ++ bundleLines delimiter ((file.lines.drop 1).take m) j)) := by
        refine ⟨by simpa using h.1, fun j w hj => ?_⟩
        obtain ⟨m, hm⟩ := h.2 j (w ++ marker file.name) (by simp [List.getElem?_map, hj])
        exact ⟨m, by rw [hm, List.append_assoc]⟩
      cases ok with
      | true => exact ⟨key.1, fun j w hj => Or.inr (key.2 j w hj)⟩
      | false => exact ⟨key.1, fun j w hj => Or.inr (key.2 j w hj)⟩

/-- C7. However the write phase ends, the text of an output is what it was
before followed by one block per file the walk has reached, in the order of the
walk; the block of a file is its marker followed by key/value lines of its data
rows (all of them unless the run stopped in that file). When the write phase
returns `nil` there is one block for every file, with all its key/value lines; so
for any file of the walk the text is then: the blocks of the files before it,
its marker, its key/value lines, the blocks of the files after it. For the two
files `a.csv` and `b.csv` the output is the marker and line of `a.csv`, then the
marker and line of `b.csv`. -/
theorem startLocalizeIOS_blocks (delimiter : Str) (files : List CsvFile)
    (outs : List Str) (i : Nat) (w : Str) (hi : outs[i]? = some w) :
    (∃ blocks : List Str,
      (startLocalizeIOS delimiter files outs).1[i]? = some (w ++ blocks.flatten)
      ∧ blocks.length ≤ files.length
      ∧ (∀ (p : Nat) (f : CsvFile) (b : Str), files[p]? = some f → blocks[p]? = some b →
          ∃ m, b = marker f.name ++ bundleLines delimiter ((f.lines.drop 1).take m) i)
      ∧ ((startLocalizeIOS delimiter files outs).2 = Exit.ok →
          blocks = files.map (fun f =>
            marker f.name ++ bundleLines delimiter (f.lines.drop 1) i))
      ∧ ((startLocalizeIOS delimiter files outs).2 = Exit.ok →
          ∀ (pre post : List CsvFile) (f : CsvFile), files = pre ++ f :: post →
            (startLocalizeIOS delimiter files outs).1[i]? = some (w
              ++ (pre.map (fun f =>
                  marker f.name ++ bundleLines delimiter (f.lines.drop 1) i)).flatten
              ++ marker f.name ++ bundleLines delimiter (f.lines.drop 1) i
              ++ (post.map (fun f =>
                  marker f.name ++ bundleLines delimiter (f.lines.drop 1) i)).flatten)))
    ∧ startLocalizeIOS ",".toList markerCsvs [[]]
      = (["\n/* a.csv */\n\"one\" = \"One\";\n\n/* b.csv */\n\"two\" = \"Two\";\n".toList],
          Exit.ok) := by
  refine ⟨?_, by decide⟩
  have main : ∃ blocks : List Str,
      (startLocalizeIOS delimiter files outs).1[i]? = some (w ++ blocks.flatten)
      ∧ blocks.length ≤ files.length
      ∧ (∀ (p : Nat) (f : CsvFile) (b : Str), files[p]? = some f → blocks[p]? = some b →
          ∃ m, b = marker f.name ++ bundleLines delimiter ((f.lines.drop 1).take m) i)
      ∧ ((startLocalizeIOS delimiter files outs).2 = Exit.ok →
          blocks = files.map (fun f =>
            marker f.name ++ bundleLines delimiter (f.lines.drop 1) i)) := by
    induction files generalizing outs w with
    | nil => exact ⟨[], by simp [startLocalizeIOS, hi], by simp, by simp, fun _ => rfl⟩
    | cons f files ih =>
      rw [startLocalizeIOS]
      cases hp : processCSVToIOS delimiter f outs with
      | mk outs1 e =>
        have hany := processCSVToIOS_any delimiter f outs
        rw [hp] at hany
        cases e with
        | ok =>
          simp only []
          have h1 := (processCSVToIOS_ok _ _ _ _ hp).2 i w hi
          obtain ⟨blocks, hb1, hb2, hb3, hb4⟩ := ih outs1 (w ++ fileBlock delimiter f i) h1
          refine ⟨fileBlock delimiter f i :: blocks, ?_, by simpa using hb2, ?_, ?_⟩
          · rw [hb1]; simp
          · intro p g b hg hb
            cases p with
            | zero =>
              simp only [List.getElem?_cons_zero, Option.some.injEq] at hg hb
              subst hg hb
              exact ⟨(f.lines.drop 1).length, by rw [List.take_length]; rfl⟩
            | succ p =>
              simp only [List.getElem?_cons_succ] at hg hb
              exact hb3 p g b hg hb
          · intro hok
            rw [hb4 hok]
            rfl
        | error err =>
          simp only []
          rcases hany.2 i w hi with ⟨h', _⟩ | ⟨m, h'⟩
          · exact ⟨[], by simpa using h', by simp, by simp, fun h => by cases h⟩
          · refine ⟨[marker f.name ++ bundleLines delimiter ((f.lines.drop 1).take m) i],
              by simpa using h', by simp, ?_, fun h => by cases h⟩
            intro p g b hg hb
            cases p with
            | zero =>
              simp only [List.getElem?_cons_zero, Option.some.injEq] at hg hb
              subst hg hb
              exact ⟨m, rfl⟩
            | succ p => simp at hb
        | panic =>
          simp only []
          rcases hany.2 i w hi with ⟨h', _⟩ | ⟨m, h'⟩
          · exact ⟨[], by simpa using h', by simp, by simp, fun h => by cases h⟩
          · refine ⟨[marker f.name ++ bundleLines delimiter ((f.lines.drop 1).take m) i],
              by simpa using h', by simp, ?_, fun h => by cases h⟩
            intro p g b hg hb
            cases p with
            | zero =>
              simp only [List.getElem?_cons_zero, Option.some.injEq] at hg hb
              subst hg hb
              exact ⟨m, rfl⟩
            | succ p => simp at hb
  obtain ⟨blocks, hb1, hb2, hb3, hb4⟩ := main
  refine ⟨blocks, hb1, hb2, hb3, hb4, ?_⟩
  intro hok pre post f hf
  rw [hb1, hb4 hok, hf]
  simp

/-- The statement of `startLocalizeIOS_blocks` at the files `a.csv` and `b.csv`
and one empty output. -/
theorem startLocalizeIOS_blocks_witness :
    (∃ blocks : List Str,
      (startLocalizeIOS ",".toList markerCsvs [[]]).1[0]? = some ([] ++ blocks.flatten)
      ∧ blocks.length ≤ markerCsvs.length
      ∧ (∀ (p : Nat) (f : CsvFile) (b : Str), markerCsvs[p]? = some f → blocks[p]? = some b →
          ∃ m, b = marker f.name ++ bundleLines ",".toList ((f.lines.drop 1).take m) 0)
      ∧ ((startLocalizeIOS ",".toList markerCsvs [[]]).2 = Exit.ok →
          blocks = markerCsvs.map (fun f =>
            marker f.name ++ bundleLines ",".toList (f.lines.drop 1) 0))
      ∧ ((startLocalizeIOS ",".toList markerCsvs [[]]).2 = Exit.ok →
          ∀ (pre post : List CsvFile) (f : CsvFile), markerCsvs = pre ++ f :: post →
            (startLocalizeIOS ",".toList markerCsvs [[]]).1[0]? = some ([]
              ++ (pre.map (fun f =>
                  marker f.name ++ bundleLines ",".toList (f.lines.drop 1) 0)).flatten
              ++ marker f.name ++ bundleLines ",".toList (f.lines.drop 1) 0
              ++ (post.map (fun f =>
                  marker f.name ++ bundleLines ",".toList (f.lines.drop 1) 0)).flatten)))
    ∧ startLocalizeIOS ",".toList markerCsvs [[]]
      = (["\n/* a.csv */\n\"one\" = \"One\";\n\n/* b.csv */\n\"two\" = \"Two\";\n".toList],
          Exit.ok) :=
  startLocalizeIOS_blocks ",".toList markerCsvs [[]] 0 [] (by decide)

/-! ## The split of package `strings`: enough cuts, nothing lost -/

theorem cutFirst_nil_sep {sep : Str} (h : sep ≠ []) : cutFirst sep [] = none := by
  simp [cutFirst, h]

/-- With a non-empty separator the loop of `genSplit` needs at most `len(s)`
cuts: any two bounds that cover the length give the same pieces. -/
theorem splitLoop_fuel (sep : Str) (hsep : sep ≠ []) (k k' : Nat) (s : Str)
    (hk : s.length ≤ k) (hk' : s.length ≤ k') :
    splitLoop sep k s = splitLoop sep k' s := by
  induction k generalizing s k' with
  | zero =>
    have : s = [] := List.length_eq_zero.mp (by omega)
    subst this
    cases k' with
    | zero => rfl
    | succ k' => rw [splitLoop, splitLoop, cutFirst_nil_sep hsep]
  | succ k ih =>
    rw [splitLoop]
    cases hc : cutFirst sep s with
    | none =>
      cases k' with
      | zero => rfl
      | succ k' => rw [splitLoop, hc]
    | some q =>
      obtain ⟨a, rest⟩ := q
      have hl := cutFirst_length hc
      have hpos : 0 < sep.length := List.length_pos.mpr hsep
      cases k' with
      | zero => omega
      | succ k' =>
        rw [splitLoop, hc]
        simp only []
        rw [ih k' rest (by omega) (by omega)]

/-- The last piece of a split holds no occurrence of the separator: the loop has
ended because nothing was left to cut, not for want of cuts. -/
theorem splitLoop_complete (sep : Str) (hsep : sep ≠ []) (k : Nat) (s : Str)
    (hk : s.length ≤ k) : ∀ p, (splitLoop sep k s).getLast? = some p → ¬ sep <:+: p := by
  induction k generalizing s with
  | zero =>
    have : s = [] := List.length_eq_zero.mp (by omega)
    subst this
    intro p hp
    simp only [splitLoop, List.getLast?_singleton, Option.some.injEq] at hp
    subst hp
    simpa using hsep
  | succ k ih =>
    rw [splitLoop]
    cases hc : cutFirst sep s with
    | none =>
      intro p hp
      simp only [List.getLast?_singleton, Option.some.injEq] at hp
      subst hp
      exact (cutFirst_none_iff _ _).mp hc
    | some q =>
      obtain ⟨a, rest⟩ := q
      have hl := cutFirst_length hc
      have hpos : 0 < sep.length := List.length_pos.mpr hsep
      intro p hp
      simp only [] at hp
      have hne : splitLoop sep k rest ≠ [] := by
        cases k with
        | zero => simp [splitLoop]
        | succ k =>
          rw [splitLoop]
          cases cutFirst sep rest with
          | none => simp
          | some q => simp
      obtain ⟨b, more, hbm⟩ := List.exists_cons_of_ne_nil hne
      rw [hbm, List.getLast?_cons_cons, ← hbm] at hp
      exact ih rest (by omega) p hp

/-- Joining the pieces of a split with the separator gives the string back. -/
theorem Join_splitLoop (sep : Str) (k : Nat) (s : Str) : Join (splitLoop sep k s) sep = s := by
  induction k generalizing s with
  | zero => rw [splitLoop, Join_singleton]
  | succ k ih =>
    rw [splitLoop]
    cases hc : cutFirst sep s with
    | none => rw [Join_singleton]
    | some q =>
      obtain ⟨a, rest⟩ := q
      simp only []
      have hrest := ih rest
      cases hsl : splitLoop sep k rest with
      | nil =>
        cases k with
        | zero => simp [splitLoop] at hsl
        | succ k =>
          rw [splitLoop] at hsl
          cases hc' : cutFirst sep rest with
          | none => rw [hc'] at hsl; simp at hsl
          | some q => rw [hc'] at hsl; simp at hsl
      | cons b more =>
        rw [hsl] at hrest
        rw [Join_cons_cons, hrest, cutFirst_some hc]

/-! ## The setup phase of `generateIOSKeys` -/

theorem createAll_ok (canCreate : Str → Bool) (langs : List Str) (opened acc : List Handle)
    (h : ∀ l ∈ langs, canCreate l = true) :
    ∃ hs : List Handle, hs.map Handle.lang = langs
      ∧ createAll canCreate langs opened acc = (opened ++ hs, some (acc ++ hs)) := by
  induction langs generalizing opened acc with
  | nil => exact ⟨[], rfl, by simp [createAll]⟩
  | cons l langs ih =>
    obtain ⟨hs, h1, h2⟩ := ih (opened ++ [⟨opened.length, l⟩]) (acc ++ [⟨opened.length, l⟩])
      (fun x hx => h x (by simp [hx]))
    refine ⟨⟨opened.length, l⟩ :: hs, by simp [h1], ?_⟩
    rw [createAll, if_pos (h l (by simp)), h2]
    simp

/-- Once `langKeys` is not empty, the first walk never replaces it nor the
writers, whatever the later files hold and however the walk ends. -/
theorem setupWalk_keeps (delimiter : Str) (canCreate : Str → Bool) (files : List CsvFile)
    (langKeys : List Str) (allWrites opened : List Handle) (hne : langKeys ≠ []) :
    (setupWalk delimiter canCreate files langKeys allWrites opened).langKeys = langKeys
      ∧ (setupWalk delimiter canCreate files langKeys allWrites opened).allWrites
        = allWrites := by
  induction files generalizing opened with
  | nil => exact ⟨rfl, rfl⟩
  | cons f files ih =>
    rw [setupWalk]
    have hlen : ¬ langKeys.length = 0 := fun h => hne (List.length_eq_zero.mp h)
    cases he : (setupLanguageFiles delimiter canCreate opened f).exit with
    | ok =>
      simp only [he, hlen, if_false]
      exact ih _
    | error e =>
      simp only [he]
      exact ⟨trivial, trivial⟩
    | panic =>
      simp only [he]
      exact ⟨trivial, trivial⟩

/-- When the header of the first file names at least one language and the
outputs can be created, the writers of the run are those of that header, in its
order, whatever the headers of the later files are. -/
theorem setupWalk_first_header (delimiter : Str) (canCreate : Str → Bool)
    (first : CsvFile) (rest : List CsvFile) (header label : Str) (more langs : List Str)
    (hread : first.readable = true) (hlines : first.lines = header :: more)
    (hheader : Split header delimiter = label :: langs) (hne : langs ≠ [])
    (hcreate : ∀ l ∈ langs, canCreate l = true) :
    (setupWalk delimiter canCreate (first :: rest) [] [] []).langKeys = langs
      ∧ (setupWalk delimiter canCreate (first :: rest) [] [] []).allWrites.map Handle.lang
        = langs := by
  obtain ⟨hs, h1, h2⟩ := createAll_ok canCreate langs [] [] hcreate
  have hsetup : setupLanguageFiles delimiter canCreate [] first = ⟨hs, Exit.ok, langs, hs⟩ := by
    unfold setupLanguageFiles
    rw [hread, hlines]
    simp only [if_true, hheader, h2]
    simp
  rw [setupWalk]
  simp only [hsetup, List.length_nil, if_true]
  have := setupWalk_keeps delimiter canCreate rest langs hs hs hne
  rw [this.1, this.2]
  exact ⟨rfl, h1⟩

/-! ## The read of bundles of pairwise different languages -/

theorem mem_of_mapGet {V : Type} (m : GoMap V) (k : Str) (v : V) (h : mapGet m k = some v) :
    (k, v) ∈ m := by
  induction m with
  | nil => rw [mapGet_nil] at h; cases h
  | cons p m ih =>
    obtain ⟨a, b⟩ := p
    rw [mapGet_cons] at h
    by_cases hk : k = a
    · rw [if_pos hk] at h
      cases h
      rw [hk]
      exact List.mem_cons_self _ _
    · rw [if_neg hk] at h
      exact List.mem_cons_of_mem _ (ih h)

/-- When no language is met twice, the table holds every entry of every bundle:
the key is a row, and the field under the language of the bundle is the value
the bundle stores. -/
theorem readLocalizedFiles_distinct (ds : List (Str × List Str))
    (h : (ds.map Prod.fst).Nodup) :
    ∃ r, readLocalizedFiles (ds.map (fun p => ⟨p.1, StringsFile.content p.2 false⟩))
        = Except.ok r
      ∧ r.languageOrder = ds.map Prod.fst
      ∧ ∀ (lang : Str) (ls : List Str) (key value : Str), (lang, ls) ∈ ds →
          mapGet (ls.foldl parseLine []) key = some value →
          key ∈ sortedKeys r.languages ∧ cell r.languages lang key = value := by
  have hwalk := walkBundles_fresh ds ⟨[], []⟩ (by simpa [mapKeys] using h)
  simp only [List.nil_append] at hwalk
  refine ⟨_, hwalk, rfl, ?_⟩
  intro lang ls key value hmem hget
  simp only []
  have hL : (lang, ls.foldl parseLine []) ∈ ds.map (fun p => (p.1, p.2.foldl parseLine [])) :=
    List.mem_map.mpr ⟨(lang, ls), hmem, rfl⟩
  refine ⟨(mem_sortedKeys _ _).mpr ⟨lang, _, value, hL, mem_of_mapGet _ _ _ hget⟩, ?_⟩
  have hk : (mapKeys (ds.map (fun p => (p.1, p.2.foldl parseLine [])))).Nodup := by
    simpa [mapKeys, Function.comp_def] using h
  have := mapGet_of_mem _ lang _ hk hL
  simp [cell, this, hget]

/-! ## `validatePath`: when it fails -/

/-- C16. Over any status lookup, `validatePath` returns an error exactly when the
lookup reports that the path does not exist, and the error names the path; for an
existing directory it returns `nil`. In the situation of `TestValidatePath` the
existing directory passes and a path below it that is missing fails. -/
theorem validatePath_iff (stat : Str → StatResult) (path : Str) :
    ((validatePath stat path).isSome = true ↔ stat path = StatResult.notExist)
      ∧ (stat path = StatResult.notExist →
          validatePath stat path = some ("path not found: ".toList ++ path))
      ∧ (∀ isDir, stat path = StatResult.found isDir → validatePath stat path = none)
      ∧ (stat path = StatResult.failed → validatePath stat path = none)
      ∧ validatePath testStat "/tmp/t".toList = none
      ∧ validatePath testStat "/tmp/t/nonexistent".toList
        = some "path not found: /tmp/t/nonexistent".toList := by
  refine ⟨?_, ?_, ?_, ?_, by decide, by decide⟩
  · unfold validatePath
    cases h : stat path <;> simp [IsNotExist]
  · intro h
    simp [validatePath, h, IsNotExist]
  · intro isDir h
    simp [validatePath, h, IsNotExist]
  · intro h
    simp [validatePath, h, IsNotExist]

/-! ## The handles of a run -/

/-- The deferred function of `generateIOSKeys` closes the writers of `allWrites`,
on every path, and nothing else. -/
theorem generateIOSKeys_closed (delimiter : Str) (canCreate : Str → Bool)
    (files : List CsvFile) :
    (generateIOSKeys delimiter canCreate files).closed
      = (generateIOSKeys delimiter canCreate files).allWrites := by
  unfold generateIOSKeys
  cases h : (setupWalk delimiter canCreate files [] [] []).exit <;> simp [h]

/-- C15, the defect. With two files whose headers both name `en`, the first walk
opens a handle for each file; only the handle of the first file is in `allWrites`,
so the run completes with the second handle opened and never closed. -/
theorem second_setup_handle_leaks :
    (generateIOSKeys ",".toList (fun _ => true) twoHeaderCsvs).exit = Exit.ok
      ∧ (generateIOSKeys ",".toList (fun _ => true) twoHeaderCsvs).opened
        = [⟨0, "en".toList⟩, ⟨1, "en".toList⟩]
      ∧ (generateIOSKeys ",".toList (fun _ => true) twoHeaderCsvs).closed
        = [⟨0, "en".toList⟩]
      ∧ (⟨1, "en".toList⟩ : Handle)
          ∈ (generateIOSKeys ",".toList (fun _ => true) twoHeaderCsvs).opened
      ∧ (⟨1, "en".toList⟩ : Handle)
          ∉ (generateIOSKeys ",".toList (fun _ => true) twoHeaderCsvs).closed := by
  decide

/-! ## Markers on the way back -/

theorem splitNL_ne_nil (s : Str) : splitNL s ≠ [] := by
  cases s with
  | nil => simp [splitNL]
  | cons c s =>
    rw [splitNL]
    split_ifs
    · simp
    · cases splitNL s <;> simp

/-- A newline closes the last piece of what stands before it. -/
theorem splitNL_append_nl (u t : Str) : splitNL (u ++ '\n' :: t) = splitNL u ++ splitNL t := by
  induction u with
  | nil => simp [splitNL]
  | cons c u ih =>
    show splitNL (c :: (u ++ '\n' :: t)) = splitNL (c :: u) ++ splitNL t
    rw [splitNL, splitNL, ih]
    split_ifs
    · rfl
    · obtain ⟨l, ls, hl⟩ := List.exists_cons_of_ne_nil (splitNL_ne_nil u)
      rw [hl]
      rfl

theorem scanLines_terminated (u : Str) : scanLines (u ++ ['\n']) = (splitNL u).map dropCR := by
  unfold scanLines
  have h : splitNL (u ++ ['\n']) = splitNL u ++ [[]] := by
    rw [splitNL_append_nl]; rfl
  simp only [h]
  simp

/-- The tokens of a text after a newline are those of the part before it followed
by those of the part after it. -/
theorem scanLines_append_nl (u t : Str) :
    scanLines (u ++ '\n' :: t) = scanLines (u ++ ['\n']) ++ scanLines t := by
  rw [scanLines_terminated]
  unfold scanLines
  simp only [splitNL_append_nl]
  obtain ⟨l, ls, hl⟩ := List.exists_cons_of_ne_nil (splitNL_ne_nil t)
  have hlast : (splitNL u ++ splitNL t).getLast? = (splitNL t).getLast? := by
    rw [hl, List.getLast?_append_cons]
  have hdrop : (splitNL u ++ splitNL t).dropLast = splitNL u ++ (splitNL t).dropLast := by
    rw [hl, List.dropLast_append_cons]
  rw [hlast]
  split_ifs
  · rw [hdrop, List.map_append]
  · rw [List.map_append]

theorem scanLines_marker (name : Str) (hname : '\n' ∉ name) :
    scanLines (marker name) = [[], markerText name] := by
  have h : marker name = ([[], markerText name] : List Str).flatMap (fun l => l ++ ['\n']) := by
    simp [marker, markerText]
  rw [h, scanLines_lines]
  · have hmcr : dropCR (markerText name) = markerText name := by
      have : markerText name = ('/' :: '*' :: ' ' :: (name ++ [' ', '*'])) ++ ['/'] := by
        simp [markerText]
      rw [this]
      exact dropCR_of_last _ _ (by decide)
    have h0 : dropCR [] = [] := by decide
    simp only [List.map_cons, List.map_nil, h0, hmcr]
  · intro l hl
    simp only [List.mem_cons, List.mem_singleton, List.not_mem_nil, or_false] at hl
    rcases hl with rfl | rfl
    · simp
    · simp [markerText, hname]

theorem parseLine_empty (bundle : Bundle) : parseLine bundle [] = bundle := by
  simp [parseLine, parseKV_empty]

theorem parseLine_markerText (bundle : Bundle) (name : Str) :
    parseLine bundle (markerText name) = bundle := by
  simp [parseLine, parseKV_markerText]

theorem marker_split (name post : Str) :
    marker name ++ post = [] ++ '\n' :: (markerText name ++ '\n' :: post) := by
  simp [marker, markerText]

/-- A marker at the start of a line changes nothing in what is parsed. -/
theorem foldl_skip_marker (name : Str) (hname : '\n' ∉ name) (pre post : Str)
    (bundle : Bundle) (hpre : pre = [] ∨ ['\n'] <:+ pre) :
    (scanLines (pre ++ marker name ++ post)).foldl parseLine bundle
      = (scanLines (pre ++ post)).foldl parseLine bundle := by
  have hm : ∀ b : Bundle, (scanLines (marker name ++ post)).foldl parseLine b
      = (scanLines post).foldl parseLine b := by
    intro b
    have hmt : scanLines (markerText name ++ ['\n']) = [markerText name] := by
      have := scanLines_marker name hname
      have hs : marker name = [] ++ '\n' :: (markerText name ++ ['\n']) := by
        simp [marker, markerText]
      rw [hs, scanLines_append_nl [] (markerText name ++ ['\n'])] at this
      have h0 : scanLines (([] : Str) ++ ['\n']) = [[]] := by decide
      rw [h0] at this
      simpa using this
    rw [marker_split, scanLines_append_nl [] (markerText name ++ '\n' :: post),
      scanLines_append_nl (markerText name) post, hmt]
    have h0 : scanLines (([] : Str) ++ ['\n']) = [[]] := by decide
    rw [h0]
    simp only [List.singleton_append, List.foldl_cons, parseLine_empty, parseLine_markerText]
  rcases hpre with rfl | ⟨u, rfl⟩
  · simpa using hm bundle
  · have e1 : u ++ ['\n'] ++ marker name ++ post = u ++ '\n' :: (marker name ++ post) := by
      simp
    have e2 : u ++ ['\n'] ++ post = u ++ '\n' :: post := by simp
    rw [e1, e2, scanLines_append_nl u (marker name ++ post), scanLines_append_nl u post,
      List.foldl_append, List.foldl_append, hm]

/-- C11. For a file name without a line break, the scanner reads the marker as
an empty line and the line `/* <name> */`; the line parser stores nothing for
either. So a marker that stands at the start of the text or after a newline can
be taken out without changing the bundle that is parsed, and the block of a file
parses to the entries of its key/value lines alone. -/
theorem marker_skipped (name : Str) (hname : '\n' ∉ name) :
    scanLines ("\n/* ".toList ++ name ++ " */\n".toList)
        = [[], "/* ".toList ++ name ++ " */".toList]
      ∧ parseKV [] = none
      ∧ parseKV ("/* ".toList ++ name ++ " */".toList) = none
      ∧ (∀ bundle : Bundle, parseLine bundle [] = bundle
          ∧ parseLine bundle ("/* ".toList ++ name ++ " */".toList) = bundle)
      ∧ (∀ (pre post : Str) (bundle : Bundle), (pre = [] ∨ ['\n'] <:+ pre) →
          (scanLines (pre ++ marker name ++ post)).foldl parseLine bundle
            = (scanLines (pre ++ post)).foldl parseLine bundle)
      ∧ (∀ (delimiter : Str) (file : CsvFile) (i : Nat), file.name = name →
          parseBundle (fileBlock delimiter file i)
            = parseBundle (bundleLines delimiter (file.lines.drop 1) i)) := by
  refine ⟨scanLines_marker name hname, parseKV_empty, parseKV_markerText name,
    fun b => ⟨parseLine_empty b, parseLine_markerText b name⟩,
    fun pre post b h => foldl_skip_marker name hname pre post b h, ?_⟩
  intro delimiter file i hf
  unfold parseBundle fileBlock
  rw [hf]
  have := foldl_skip_marker name hname [] (bundleLines delimiter (file.lines.drop 1) i) []
    (Or.inl rfl)
  simpa using this

/-- The statement of `marker_skipped` at the name `test.csv`. -/
theorem marker_skipped_witness :
    scanLines ("\n/* ".toList ++ "test.csv".toList ++ " */\n".toList)
        = [[], "/* ".toList ++ "test.csv".toList ++ " */".toList]
      ∧ parseKV [] = none
      ∧ parseKV ("/* ".toList ++ "test.csv".toList ++ " */".toList) = none
      ∧ (∀ bundle : Bundle, parseLine bundle [] = bundle
          ∧ parseLine bundle ("/* ".toList ++ "test.csv".toList ++ " */".toList) = bundle)
      ∧ (∀ (pre post : Str) (bundle : Bundle), (pre = [] ∨ ['\n'] <:+ pre) →
          (scanLines (pre ++ marker "test.csv".toList ++ post)).foldl parseLine bundle
            = (scanLines (pre ++ post)).foldl parseLine bundle)
      ∧ (∀ (delimiter : Str) (file : CsvFile) (i : Nat), file.name = "test.csv".toList →
          parseBundle (fileBlock delimiter file i)
            = parseBundle (bundleLines delimiter (file.lines.drop 1) i)) :=
  marker_skipped "test.csv".toList (by decide)

/-! ## One key/value line, written and read -/

theorem rdropWhile_cons (p : Char → Bool) (a : Char) (l : Str) :
    (a :: l).rdropWhile p
      = if l.rdropWhile p = [] then (if p a then [] else [a]) else a :: l.rdropWhile p := by
  induction l using List.reverseRecOn with
  | nil => simp [List.rdropWhile_singleton]
  | append_singleton l x ih =>
    rw [← List.cons_append, List.rdropWhile_concat, List.rdropWhile_concat]
    by_cases hx : p x = true
    · simp only [hx, if_true]
      exact ih
    · simp only [hx, Bool.false_eq_true, if_false]
      simp

/-- Quotes put around a string are stripped together with the quotes the string
begins and ends with. -/
theorem Trim_wrap (s : Str) : Trim ('"' :: (s ++ ['"'])) ['"'] = Trim s ['"'] := by
  unfold Trim
  have hq : (fun c => (['"'] : Str).contains c) '"' = true := by decide
  rw [← List.cons_append, List.rdropWhile_concat_pos _ _ _ hq, rdropWhile_cons]
  by_cases h : s.rdropWhile (fun c => (['"'] : Str).contains c) = []
  · rw [if_pos h, if_pos hq, h]
  · rw [if_neg h, List.dropWhile_cons_of_pos hq]

/-- `Trim` with the cutset `"` leaves a string as it is exactly when the string
neither begins nor ends with a quote. -/
theorem Trim_eq_self_iff (s : Str) :
    Trim s ['"'] = s ↔ ¬ ['"'] <+: s ∧ ¬ ['"'] <:+ s := by
  have hq : (fun c => (['"'] : Str).contains c) '"' = true := by decide
  constructor
  · intro h
    constructor
    · rintro ⟨t, ht⟩
      have hh := List.head?_dropWhile_not (fun c => (['"'] : Str).contains c)
        (s.rdropWhile (fun c => (['"'] : Str).contains c))
      unfold Trim at h
      rw [h, ← ht] at hh
      simp at hh
    · rintro ⟨t, ht⟩
      have h1 : (Trim s ['"']).length ≤ (s.rdropWhile (fun c => (['"'] : Str).contains c)).length :=
        (List.dropWhile_suffix _).length_le
      have h2 : s.rdropWhile (fun c => (['"'] : Str).contains c)
          = t.rdropWhile (fun c => (['"'] : Str).contains c) := by
        rw [← ht, List.rdropWhile_concat_pos _ _ _ hq]
      have h3 : (t.rdropWhile (fun c => (['"'] : Str).contains c)).length ≤ t.length :=
        (List.rdropWhile_prefix _ _).length_le
      have h4 : s.length = t.length + 1 := by rw [← ht]; simp
      rw [h, h2] at h1
      omega
  · rintro ⟨hb, he⟩
    unfold Trim
    have hlast : ∀ c t, s = t ++ [c] → (['"'] : Str).contains c = false := by
      intro c t hs
      cases hc : (['"'] : Str).contains c with
      | false => rfl
      | true =>
        have : c = '"' := by simpa using hc
        exact absurd ⟨t, by rw [hs, this]⟩ he
    have hhead : ∀ c t, s = c :: t → (['"'] : Str).contains c = false := by
      intro c t hs
      cases hc : (['"'] : Str).contains c with
      | false => rfl
      | true =>
        have : c = '"' := by simpa using hc
        exact absurd ⟨t, by rw [hs, this]; rfl⟩ hb
    rw [rdropWhile_not_last _ _ hlast, dropWhile_not_head _ _ hhead]

/-- A written key/value line whose key has no space is parsed to an entry: the
key and the value, each without the quotes it begins and ends with. -/
theorem parseKV_kvText_trim (key value : Str) (hsp : ' ' ∉ key) :
    parseKV (kvText key value) = some (Trim key ['"'], Trim value ['"']) := by
  have h : kvText key value
      = ('"' :: (key ++ ['"'])) ++ ' ' :: (['=', ' '] ++ (('"' :: (value ++ ['"'])) ++ [';'])) := by
    simp [kvText]
  have h' : kvText key value
      = '"' :: ((key ++ ['"'] ++ ' ' :: (['=', ' '] ++ ('"' :: (value ++ ['"'])))) ++ [';']) := by
    simp [kvText]
  have ht : TrimSpace (kvText key value) = kvText key value := by
    rw [h']
    exact TrimSpace_between _ _ _ (by decide) (by decide)
  have hne : kvText key value ≠ [] := by rw [h']; simp
  have hp1 : HasPrefix (kvText key value) "/*".toList = false := by
    cases hh : HasPrefix (kvText key value) "/*".toList with
    | false => rfl
    | true =>
      obtain ⟨t, ht⟩ := (HasPrefix_iff _ _).mp hh
      rw [h'] at ht
      simp at ht
  have hp2 : HasPrefix (kvText key value) "//".toList = false := by
    cases hh : HasPrefix (kvText key value) "//".toList with
    | false => rfl
    | true =>
      obtain ⟨t, ht⟩ := (HasPrefix_iff _ _).mp hh
      rw [h'] at ht
      simp at ht
  have hcut : cutFirst " = ".toList (kvText key value)
      = some ('"' :: (key ++ ['"']), ('"' :: (value ++ ['"'])) ++ [';']) := by
    rw [h]
    exact cutFirst_append _ (by simp [hsp])
  unfold parseKV
  simp only [ht, hp1, hp2, hne, decide_False, Bool.or_self, Bool.false_eq_true, if_false]
  rw [SplitN2_eq, hcut]
  simp only []
  rw [show ";".toList = [';'] from rfl, TrimSuffix_concat,
    show "\"".toList = ['"'] from rfl, Trim_wrap, Trim_wrap]

theorem scanLines_kvLine (key value : Str) (hk : '\n' ∉ key) (hv : '\n' ∉ value) :
    scanLines (kvLine key value) = [kvText key value] := by
  have h : kvLine key value = ([kvText key value] : List Str).flatMap (fun l => l ++ ['\n']) := by
    simp [kvLine_eq]
  rw [h, scanLines_lines]
  · have : kvText key value
        = ('"' :: (key ++ ('"' :: ' ' :: '=' :: ' ' :: '"' :: (value ++ ['"'])))) ++ [';'] := by
      simp [kvText]
    simp only [List.map_cons, List.map_nil]
    rw [this, dropCR_of_last _ _ (by decide)]
  · intro l hl
    simp only [List.mem_singleton] at hl
    subst hl
    simp [kvText, hk, hv]

/-- C17. For a key without a space character and a value, neither with a line
break, the line `"<key>" = "<value>";` that `processCSVToIOS` writes is one token
of the scanner, and the line parser makes an entry of it: the key and the value,
each stripped of every quote it begins and ends with. This entry is the pair of
the key and the value exactly when neither of them begins or ends with a double
quote. -/
theorem kv_line_round_trip (key value : Str) (hsp : ' ' ∉ key) (hk : '\n' ∉ key)
    (hv : '\n' ∉ value) :
    scanLines ("\"".toList ++ key ++ "\" = \"".toList ++ value ++ "\";\n".toList)
        = ["\"".toList ++ key ++ "\" = \"".toList ++ value ++ "\";".toList]
      ∧ parseKV ("\"".toList ++ key ++ "\" = \"".toList ++ value ++ "\";".toList)
        = some (Trim key "\"".toList, Trim value "\"".toList)
      ∧ parseBundle (kvLine key value) = [(Trim key "\"".toList, Trim value "\"".toList)]
      ∧ ((Trim key "\"".toList, Trim value "\"".toList) = (key, value) ↔
          (¬ "\"".toList <+: key ∧ ¬ "\"".toList <:+ key
            ∧ ¬ "\"".toList <+: value ∧ ¬ "\"".toList <:+ value)) := by
  have hq : "\"".toList = ['"'] := rfl
  refine ⟨scanLines_kvLine key value hk hv, ?_, ?_, ?_⟩
  · rw [hq]
    exact parseKV_kvText_trim key value hsp
  · unfold parseBundle
    rw [scanLines_kvLine key value hk hv, hq]
    simp [parseLine, parseKV_kvText_trim key value hsp, mapSet]
  · rw [hq, Prod.mk.injEq, Trim_eq_self_iff, Trim_eq_self_iff]
    tauto

/-- The statement of `kv_line_round_trip` at the key `hello` and the value
`Hello`. -/
theorem kv_line_round_trip_witness :
    scanLines ("\"".toList ++ "hello".toList ++ "\" = \"".toList ++ "Hello".toList
          ++ "\";\n".toList)
        = ["\"".toList ++ "hello".toList ++ "\" = \"".toList ++ "Hello".toList
          ++ "\";".toList]
      ∧ parseKV ("\"".toList ++ "hello".toList ++ "\" = \"".toList ++ "Hello".toList
          ++ "\";".toList)
        = some (Trim "hello".toList "\"".toList, Trim "Hello".toList "\"".toList)
      ∧ parseBundle (kvLine "hello".toList "Hello".toList)
        = [(Trim "hello".toList "\"".toList, Trim "Hello".toList "\"".toList)]
      ∧ ((Trim "hello".toList "\"".toList, Trim "Hello".toList "\"".toList)
          = ("hello".toList, "Hello".toList) ↔
          (¬ "\"".toList <+: "hello".toList ∧ ¬ "\"".toList <:+ "hello".toList
            ∧ ¬ "\"".toList <+: "Hello".toList ∧ ¬ "\"".toList <:+ "Hello".toList)) :=
  kv_line_round_trip "hello".toList "Hello".toList (by decide) (by decide) (by decide)

/-! ## A key assigned on several lines -/

theorem mapGet_parseLine_other (bundle : Bundle) (line key : Str)
    (h : ∀ v, parseKV line ≠ some (key, v)) :
    mapGet (parseLine bundle line) key = mapGet bundle key := by
  unfold parseLine
  cases hp : parseKV line with
  | none => rfl
  | some kv =>
    obtain ⟨k, v⟩ := kv
    simp only []
    rw [mapGet_mapSet]
    have hne : key ≠ k := by
      intro e
      apply h v
      rw [hp, e]
    rw [if_neg hne]

theorem mapGet_foldl_parseLine_other (lines : List Str) (bundle : Bundle) (key : Str)
    (h : ∀ l ∈ lines, ∀ v, parseKV l ≠ some (key, v)) :
    mapGet (lines.foldl parseLine bundle) key = mapGet bundle key := by
  induction lines generalizing bundle with
  | nil => rfl
  | cons l lines ih =>
    rw [List.foldl_cons, ih _ (fun x hx => h x (List.mem_cons_of_mem _ hx)),
      mapGet_parseLine_other _ _ _ (h l (List.mem_cons_self _ _))]

theorem nodup_mapKeys_foldl_parseLine (lines : List Str) (bundle : Bundle)
    (h : (mapKeys bundle).Nodup) : (mapKeys (lines.foldl parseLine bundle)).Nodup := by
  induction lines generalizing bundle with
  | nil => exact h
  | cons l lines ih =>
    rw [List.foldl_cons]
    apply ih
    unfold parseLine
    cases parseKV l with
    | none => exact h
    | some kv => exact nodup_mapKeys_mapSet _ _ _ h

theorem head?_csvRow (languages : Languages) (languageOrder : List Str) (key : Str) :
    (csvRow languages languageOrder key).head? = some key := rfl

theorem filter_rows_absent (languages : Languages) (languageOrder : List Str)
    (keys : List Str) (key : Str) (h : key ∉ keys) :
    (keys.map (csvRow languages languageOrder)).filter
      (fun row => decide (row.head? = some key)) = [] := by
  induction keys with
  | nil => rfl
  | cons k keys ih =>
    have hk : ¬ k = key := fun e => h (by simp [e])
    rw [List.map_cons, List.filter_cons]
    simp only [head?_csvRow, Option.some.injEq, hk, decide_False, Bool.false_eq_true, if_false]
    exact ih (fun hm => h (List.mem_cons_of_mem _ hm))

theorem filter_rows_single (languages : Languages) (languageOrder : List Str)
    (keys : List Str) (key : Str) (hn : keys.Nodup) (h : key ∈ keys) :
    (keys.map (csvRow languages languageOrder)).filter
      (fun row => decide (row.head? = some key)) = [csvRow languages languageOrder key] := by
  induction keys with
  | nil => cases h
  | cons k keys ih =>
    rw [List.nodup_cons] at hn
    rw [List.map_cons, List.filter_cons]
    by_cases hk : k = key
    · subst hk
      simp only [head?_csvRow, decide_True, if_true]
      rw [filter_rows_absent _ _ _ _ hn.1]
    · simp only [head?_csvRow, Option.some.injEq, hk, decide_False, Bool.false_eq_true, if_false]
      rcases List.mem_cons.mp h with e | hm
      · exact absurd e.symm hk
      · exact ih hn.2 hm

/-- C18. When the last line of a strings file that assigns a key gives it the
value `value`, the parsed bundle holds that value for the key and holds the key
once. In the rows `writeCSV` writes from a map that has this bundle under its
language there is one row for the key, and its field under the language is that
value. For the file with the lines of `hello`, `world`, `hello` the table has the
rows `hello` with the second value and `world`. -/
theorem duplicate_key_last_wins (before after : List Str) (line key value : Str)
    (hline : parseKV line = some (key, value))
    (hafter : ∀ l ∈ after, ∀ v, parseKV l ≠ some (key, v)) :
    mapGet ((before ++ line :: after).foldl parseLine []) key = some value
      ∧ (mapKeys ((before ++ line :: after).foldl parseLine [])).Nodup
      ∧ key ∈ mapKeys ((before ++ line :: after).foldl parseLine [])
      ∧ (∀ (lang : Str),
          readLocalizedFiles [⟨lang, StringsFile.content (before ++ line :: after) false⟩]
            = Except.ok ⟨[(lang, (before ++ line :: after).foldl parseLine [])], [lang]⟩)
      ∧ (∀ (languages : Languages) (languageOrder : List Str) (lang : Str) (p : Nat),
          mapGet languages lang = some ((before ++ line :: after).foldl parseLine []) →
          languageOrder[p]? = some lang →
          (csvRows languages languageOrder).filter (fun row => decide (row.head? = some key))
              = [csvRow languages languageOrder key]
            ∧ (csvRow languages languageOrder key)[p + 1]? = some value)
      ∧ ConvertToCSV ",".toList [⟨"en".toList, StringsFile.content repeatedKeyLines false⟩]
        = Except.ok "Key,en\nhello,Hi\nworld,World\n".toList := by
  have hget : mapGet ((before ++ line :: after).foldl parseLine []) key = some value := by
    rw [List.foldl_append, List.foldl_cons, mapGet_foldl_parseLine_other _ _ _ hafter]
    simp [parseLine, hline, mapGet_mapSet]
  have hnodup : (mapKeys ((before ++ line :: after).foldl parseLine [])).Nodup :=
    nodup_mapKeys_foldl_parseLine _ _ (by simp [mapKeys])
  have hmem : key ∈ mapKeys ((before ++ line :: after).foldl parseLine []) :=
    (mapGet_isSome_iff _ _).mp (by rw [hget]; rfl)
  refine ⟨hget, hnodup, hmem, ?_, ?_, rfl⟩
  · intro lang
    simp [readLocalizedFiles, walkBundles, visitBundle, mapSet]
  · intro languages languageOrder lang p hL hp
    have hk : key ∈ sortedKeys languages :=
      (mem_sortedKeys _ _).mpr ⟨lang, _, value, mem_of_mapGet _ _ _ hL, mem_of_mapGet _ _ _ hget⟩
    have hn : (sortedKeys languages).Nodup :=
      (sortedKeys_strict languages).imp
        (fun hab e => by subst e; rw [strLt_irrefl] at hab; cases hab)
    refine ⟨filter_rows_single _ _ _ _ hn hk, ?_⟩
    show (key :: languageOrder.map (fun lang => cell languages lang key))[p + 1]? = some value
    rw [List.getElem?_cons_succ, List.getElem?_map, hp]
    unfold cell
    simp only [Option.map_some']
    rw [hL]
    simp only [Option.getD_some]
    rw [hget]
    rfl

/-- The statement of `duplicate_key_last_wins` at the file with the lines of
`hello`, `world`, `hello`. -/
theorem duplicate_key_last_wins_witness :
    mapGet ((["\"hello\" = \"Hello\";".toList, "\"world\" = \"World\";".toList]
        ++ "\"hello\" = \"Hi\";".toList :: []).foldl parseLine []) "hello".toList
        = some "Hi".toList
      ∧ (mapKeys ((["\"hello\" = \"Hello\";".toList, "\"world\" = \"World\";".toList]
        ++ "\"hello\" = \"Hi\";".toList :: []).foldl parseLine [])).Nodup
      ∧ "hello".toList ∈ mapKeys
          ((["\"hello\" = \"Hello\";".toList, "\"world\" = \"World\";".toList]
            ++ "\"hello\" = \"Hi\";".toList :: []).foldl parseLine [])
      ∧ (∀ (lang : Str),
          readLocalizedFiles [⟨lang, StringsFile.content
              (["\"hello\" = \"Hello\";".toList, "\"world\" = \"World\";".toList]
                ++ "\"hello\" = \"Hi\";".toList :: []) false⟩]
            = Except.ok ⟨[(lang,
                (["\"hello\" = \"Hello\";".toList, "\"world\" = \"World\";".toList]
                  ++ "\"hello\" = \"Hi\";".toList :: []).foldl parseLine [])], [lang]⟩)
      ∧ (∀ (languages : Languages) (languageOrder : List Str) (lang : Str) (p : Nat),
          mapGet languages lang
              = some ((["\"hello\" = \"Hello\";".toList, "\"world\" = \"World\";".toList]
                ++ "\"hello\" = \"Hi\";".toList :: []).foldl parseLine []) →
          languageOrder[p]? = some lang →
          (csvRows languages languageOrder).filter
              (fun row => decide (row.head? = some "hello".toList))
              = [csvRow languages languageOrder "hello".toList]
            ∧ (csvRow languages languageOrder "hello".toList)[p + 1]? = some "Hi".toList)
      ∧ ConvertToCSV ",".toList [⟨"en".toList, StringsFile.content repeatedKeyLines false⟩]
        = Except.ok "Key,en\nhello,Hi\nworld,World\n".toList :=
  duplicate_key_last_wins ["\"hello\" = \"Hello\";".toList, "\"world\" = \"World\";".toList] []
    "\"hello\" = \"Hi\";".toList "hello".toList "Hi".toList (by decide) (by simp)

/-! ## Rows with too few value fields -/

theorem splitLoop_ne_nil (sep : Str) (k : Nat) (s : Str) : splitLoop sep k s ≠ [] := by
  cases k with
  | zero => simp [splitLoop]
  | succ k =>
    rw [splitLoop]
    cases cutFirst sep s with
    | none => simp
    | some q => simp

/-- With a non-empty delimiter every line has a first field. -/
theorem Split_ne_nil (s sep : Str) (h : sep ≠ []) : Split s sep ≠ [] := by
  unfold Split
  rw [if_neg h]
  exact splitLoop_ne_nil _ _ _

/-- The inner loop completes exactly when there is a value for every writer. -/
theorem writeRow_ok_iff (key : Str) (values : List Str) (i0 : Nat) (outs : List Str) :
    (writeRow key values i0 outs).2 = true ↔ outs = [] ∨ i0 + outs.length ≤ values.length := by
  induction outs generalizing i0 with
  | nil => simp [writeRow]
  | cons w ws ih =>
    rw [writeRow]
    cases hv : values.get? i0 with
    | none =>
      have : values.length ≤ i0 := by
        rw [List.get?_eq_getElem?] at hv
        exact List.getElem?_eq_none_iff.mp hv
      simp only [List.length_cons]
      constructor
      · intro h; cases h
      · rintro (h | h)
        · cases h
        · omega
    | some v =>
      have hlt : i0 < values.length := by
        rw [List.get?_eq_getElem?] at hv
        rcases Nat.lt_or_ge i0 values.length with h | h
        · exact h
        · rw [List.getElem?_eq_none h] at hv; cases hv
      simp only [List.length_cons]
      rw [ih (i0 + 1)]
      constructor
      · rintro (h | h)
        · right; subst h; simp; omega
        · right; omega
      · rintro (h | h)
        · cases h
        · right; omega

/-- The texts after the inner loop, completed or not: a writer has received its
line exactly when the row has a value at its position. -/
theorem writeRow_texts (key : Str) (values : List Str) (i0 : Nat) (outs : List Str) :
    ∀ (j : Nat) (w : Str), outs[j]? = some w →
      (writeRow key values i0 outs).1[j]?
        = some (if i0 + j < values.length then w ++ kvLine key (values.getD (i0 + j) [])
            else w) := by
  induction outs generalizing i0 with
  | nil => intro j w hj; simp at hj
  | cons x outs ih =>
    intro j w hj
    rw [writeRow]
    cases hv : values.get? i0 with
    | none =>
      have hle : values.length ≤ i0 := by
        rw [List.get?_eq_getElem?] at hv
        exact List.getElem?_eq_none_iff.mp hv
      simp only []
      rw [hj, if_neg (by omega)]
    | some v =>
      have hlt : i0 < values.length := by
        rw [List.get?_eq_getElem?] at hv
        rcases Nat.lt_or_ge i0 values.length with h | h
        · exact h
        · rw [List.getElem?_eq_none h] at hv; cases hv
      simp only []
      cases j with
      | zero =>
        simp only [List.getElem?_cons_zero, Option.some.injEq] at hj
        subst hj
        have : values.getD i0 [] = v := by
          rw [List.getD_eq_getElem?_getD, ← List.get?_eq_getElem?, hv]; rfl
        rw [List.getElem?_cons_zero, Nat.add_zero, if_pos hlt, this]
      | succ j =>
        simp only [List.getElem?_cons_succ] at hj ⊢
        have e : i0 + (j + 1) = i0 + 1 + j := by omega
        rw [e]
        exact ih (i0 + 1) j w hj

/-- The inner loop reads only the values at the positions of the writers. -/
theorem writeRow_congr (key : Str) (values values' : List Str) (i0 : Nat) (outs : List Str)
    (h : ∀ i, i < i0 + outs.length → values.get? i = values'.get? i) :
    writeRow key values i0 outs = writeRow key values' i0 outs := by
  induction outs generalizing i0 with
  | nil => rfl
  | cons x outs ih =>
    rw [writeRow, writeRow, ← h i0 (by simp)]
    cases values.get? i0 with
    | none => rfl
    | some v =>
      simp only []
      rw [ih (i0 + 1) (fun i hi => h i (by simp at hi ⊢; omega))]

theorem processRow_ok_eq (delimiter : Str) (outs : List Str) (row : Str) :
    (processRow delimiter outs row).2 = rowFits delimiter outs.length row := by
  unfold processRow rowFits
  cases hs : Split row delimiter with
  | nil => rfl
  | cons p0 values =>
    simp only []
    by_cases hc : HasPrefix (ReplaceAll p0 " ".toList []) "//".toList = true
    · rw [if_pos hc, hc]; rfl
    · rw [if_neg hc]
      have hc' : HasPrefix (ReplaceAll p0 " ".toList []) "//".toList = false := by
        simpa using hc
      rw [hc', Bool.false_or]
      have := writeRow_ok_iff (ReplaceAll p0 " ".toList []) values 0 outs
      by_cases hle : outs.length ≤ values.length
      · rw [decide_eq_true hle]
        exact this.mpr (Or.inr (by omega))
      · rw [decide_eq_false hle]
        cases hw : (writeRow (ReplaceAll p0 " ".toList []) values 0 outs).2 with
        | false => rfl
        | true =>
          rcases this.mp hw with h | h
          · subst h; simp at hle
          · omega

theorem processRow_length (delimiter : Str) (outs : List Str) (row : Str) :
    (processRow delimiter outs row).1.length = outs.length :=
  (processRow_any delimiter outs row).1

/-- The scanner loop of `processCSVToIOS` completes exactly when every row fits
the number of outputs. -/
theorem processRows_ok_eq (delimiter : Str) (rows : List Str) (outs : List Str) :
    (processRows delimiter outs rows).2 = rows.all (rowFits delimiter outs.length) := by
  induction rows generalizing outs with
  | nil => rfl
  | cons row rows ih =>
    rw [processRows, List.all_cons, ← processRow_ok_eq]
    have hl := processRow_length delimiter outs row
    cases hr : processRow delimiter outs row with
    | mk outs1 ok =>
      rw [hr] at hl
      simp only [] at hl
      cases ok with
      | true =>
        simp only [Bool.true_and]
        rw [ih outs1, hl]
      | false => rfl

theorem processCSVToIOS_panic_iff (delimiter : Str) (file : CsvFile) (outs : List Str) :
    (processCSVToIOS delimiter file outs).2 = Exit.panic ↔
      file.readable = true
        ∧ (file.lines.drop 1).all (rowFits delimiter outs.length) = false := by
  unfold processCSVToIOS
  cases hr : file.readable with
  | false => simp
  | true =>
    simp only [if_true, true_and]
    have h := processRows_ok_eq delimiter (file.lines.drop 1)
      (outs.map (fun w => w ++ marker file.name))
    rw [List.length_map] at h
    cases hp : processRows delimiter (outs.map (fun w => w ++ marker file.name))
        (file.lines.drop 1) with
    | mk outs1 ok =>
      rw [hp] at h
      simp only [] at h
      rw [← h]
      cases ok with
      | true =>
        simp only []
        cases file.scanErr <;> simp
      | false => simp

/-- C12. For a data row with the first field `p0` and the value fields `values`,
whose key does not start with `//`, the loop body of `processCSVToIOS` runs without
an access out of range exactly when there are at least as many values as outputs.
In every case output `j` receives its line exactly when the row has a value at
position `j`; so with fewer values than outputs the outputs before the missing
position are written and the access `values[len(values)]` fails, and the values
at positions from the number of outputs on play no part. For a whole file, the
call panics exactly when the file can be opened and some data row does not fit.
With a non-empty delimiter every line has a first field. -/
theorem positional_mismatch (delimiter row p0 : Str) (values outs : List Str)
    (hsplit : Split row delimiter = p0 :: values)
    (hkey : HasPrefix (ReplaceAll p0 " ".toList []) "//".toList = false) :
    ((processRow delimiter outs row).2 = true ↔ outs.length ≤ values.length)
      ∧ (∀ (j : Nat) (w : Str), outs[j]? = some w →
          (processRow delimiter outs row).1[j]?
            = some (if j < values.length
                then w ++ kvLine (ReplaceAll p0 " ".toList []) (values.getD j [])
                else w))
      ∧ (values.length < outs.length →
          (processRow delimiter outs row).2 = false ∧ values.get? values.length = none)
      ∧ (∀ (row' : Str) (values' : List Str), Split row' delimiter = p0 :: values' →
          values'.take outs.length = values.take outs.length →
          processRow delimiter outs row' = processRow delimiter outs row)
      ∧ (∀ (file : CsvFile) (texts : List Str),
          (processCSVToIOS delimiter file texts).2 = Exit.panic ↔
            file.readable = true
              ∧ (file.lines.drop 1).all (rowFits delimiter texts.length) = false)
      ∧ (delimiter ≠ [] → ∀ line, Split line delimiter ≠ []) := by
  have hrow : ∀ (r : Str) (vs : List Str), Split r delimiter = p0 :: vs →
      processRow delimiter outs r = writeRow (ReplaceAll p0 " ".toList []) vs 0 outs := by
    intro r vs hs
    unfold processRow
    rw [hs]
    simp only []
    rw [if_neg (by rw [hkey]; exact Bool.false_ne_true)]
  refine ⟨?_, ?_, ?_, ?_, fun file texts => processCSVToIOS_panic_iff delimiter file texts,
    fun h line => Split_ne_nil line delimiter h⟩
  · rw [hrow row values hsplit, writeRow_ok_iff]
    constructor
    · rintro (h | h)
      · subst h; simp
      · omega
    · intro h; right; omega
  · intro j w hj
    rw [hrow row values hsplit]
    have := writeRow_texts (ReplaceAll p0 " ".toList []) values 0 outs j w hj
    simpa using this
  · intro hlt
    constructor
    · rw [hrow row values hsplit]
      cases hw : (writeRow (ReplaceAll p0 " ".toList []) values 0 outs).2 with
      | false => rfl
      | true =>
        rcases (writeRow_ok_iff _ _ _ _).mp hw with h | h
        · subst h; simp at hlt
        · omega
    · rw [List.get?_eq_getElem?]
      exact List.getElem?_eq_none (le_refl _)
  · intro row' values' hs' htake
    rw [hrow row values hsplit, hrow row' values' hs']
    apply writeRow_congr
    intro i hi
    have hi' : i < outs.length := by omega
    have h1 : values[i]? = (values.take outs.length)[i]? :=
      (List.getElem?_take_of_lt hi').symm
    have h2 : values'[i]? = (values'.take outs.length)[i]? :=
      (List.getElem?_take_of_lt hi').symm
    rw [List.get?_eq_getElem?, List.get?_eq_getElem?, h1, h2, htake]

/-- The statement of `positional_mismatch` at the row `k,v` and two outputs. -/
theorem positional_mismatch_witness :
    ((processRow ",".toList [[], []] "k,v".toList).2 = true ↔
        ([[], []] : List Str).length ≤ ["v".toList].length)
      ∧ (∀ (j : Nat) (w : Str), ([[], []] : List Str)[j]? = some w →
          (processRow ",".toList [[], []] "k,v".toList).1[j]?
            = some (if j < ["v".toList].length
                then w ++ kvLine (ReplaceAll "k".toList " ".toList []) (["v".toList].getD j [])
                else w))
      ∧ (["v".toList].length < ([[], []] : List Str).length →
          (processRow ",".toList [[], []] "k,v".toList).2 = false
            ∧ ["v".toList].get? ["v".toList].length = none)
      ∧ (∀ (row' : Str) (values' : List Str), Split row' ",".toList = "k".toList :: values' →
          values'.take ([[], []] : List Str).length
              = ["v".toList].take ([[], []] : List Str).length →
          processRow ",".toList [[], []] row' = processRow ",".toList [[], []] "k,v".toList)
      ∧ (∀ (file : CsvFile) (texts : List Str),
          (processCSVToIOS ",".toList file texts).2 = Exit.panic ↔
            file.readable = true
              ∧ (file.lines.drop 1).all (rowFits ",".toList texts.length) = false)
      ∧ (",".toList ≠ [] → ∀ line, Split line ",".toList ≠ []) :=
  positional_mismatch ",".toList "k,v".toList "k".toList ["v".toList] [[], []]
    (by decide) (by decide)

/-! ## The emitted key -/

theorem Join_empty_splitLoop (c : Char) (k : Nat) (s : Str) (hk : s.length ≤ k) :
    Join (splitLoop [c] k s) [] = s.filter (fun x => decide (x ≠ c)) := by
  induction k generalizing s with
  | zero =>
    have : s = [] := List.length_eq_zero.mp (by omega)
    subst this
    rfl
  | succ k ih =>
    rw [splitLoop]
    cases hc : cutFirst [c] s with
    | none =>
      rw [Join_singleton]
      symm
      rw [List.filter_eq_self]
      intro x hx
      have := cutFirst_single_none hc
      simpa using fun e : x = c => this (e ▸ hx)
    | some q =>
      obtain ⟨a, rest⟩ := q
      simp only []
      have hl := cutFirst_length hc
      simp only [List.length_singleton] at hl
      obtain ⟨b, more, hbm⟩ := List.exists_cons_of_ne_nil (splitLoop_ne_nil [c] k rest)
      have ih' := ih rest (by omega)
      rw [hbm] at ih' ⊢
      rw [Join_cons_cons, ih', cutFirst_some hc, List.append_nil]
      have ha : a.filter (fun x => decide (x ≠ c)) = a := by
        rw [List.filter_eq_self]
        intro x hx
        have := cutFirst_single_left hc
        simpa using fun e : x = c => this (e ▸ hx)
      have hcc : [c].filter (fun x => decide (x ≠ c)) = [] := by simp
      rw [List.filter_append, List.filter_append, ha, hcc, List.append_nil]

/-- `strings.ReplaceAll(s, " ", "")` removes the space characters of `s` and
keeps every other character in place. -/
theorem ReplaceAll_space_eq_filter (s : Str) :
    ReplaceAll s " ".toList [] = s.filter (fun x => decide (x ≠ ' ')) := by
  unfold ReplaceAll Split
  rw [show " ".toList = [' '] from rfl]
  simp only [List.cons_ne_nil, if_false]
  exact Join_empty_splitLoop ' ' s.length s (le_refl _)

/-- C13 as stated fails: the key `a\tb` is emitted with its tab, a white-space
character; stripping the white space of the first field would give `ab`. -/
theorem tab_key_counterexample :
    processCSVToIOS ",".toList tabKeyCsv [[]]
        = (["\n/* a.csv */\n\"a\tb\" = \"v\";\n".toList], Exit.ok)
      ∧ ReplaceAll "a\tb".toList " ".toList [] = "a\tb".toList
      ∧ isSpace '\t' = true
      ∧ '\t' ∈ ReplaceAll "a\tb".toList " ".toList []
      ∧ stripWhitespace "a\tb".toList = "ab".toList := by
  decide

/-- C13, amended. The key that `processCSVToIOS` puts between the quotes of the
key/value line of each output is the first field of the row with its space
characters (U+0020) removed, every other character kept in place; so the emitted
key contains no space character. -/
theorem emitted_key_space_free (delimiter row p0 : Str) (values outs outs' : List Str)
    (j : Nat) (w : Str)
    (hsplit : Split row delimiter = p0 :: values)
    (hkey : HasPrefix (ReplaceAll p0 " ".toList []) "//".toList = false)
    (hrun : processRow delimiter outs row = (outs', true))
    (hj : outs[j]? = some w) :
    outs'[j]? = some (w ++ ("\"".toList ++ p0.filter (fun x => decide (x ≠ ' '))
        ++ "\" = \"".toList ++ values.getD j [] ++ "\";\n".toList))
      ∧ ReplaceAll p0 " ".toList [] = p0.filter (fun x => decide (x ≠ ' '))
      ∧ ' ' ∉ p0.filter (fun x => decide (x ≠ ' '))
      ∧ (∀ c, c ∈ p0.filter (fun x => decide (x ≠ ' ')) ↔ c ∈ p0 ∧ c ≠ ' ') := by
  refine ⟨?_, ReplaceAll_space_eq_filter p0, by simp, by simp⟩
  have h := (processRow_spec delimiter outs outs' row hrun).2 j w hj
  have hc : isComment delimiter row = false := by
    unfold isComment rowKey
    rw [hsplit]
    exact hkey
  rw [h, hc]
  unfold rowKey rowValue
  rw [hsplit, List.headD_cons, List.tail_cons, ReplaceAll_space_eq_filter]
  rfl

/-- The statement of `emitted_key_space_free` at the row ` h i,Hello` and one
output. -/
theorem emitted_key_space_free_witness :
    ["\"hi\" = \"Hello\";\n".toList][0]?
        = some ([] ++ ("\"".toList ++ " h i".toList.filter (fun x => decide (x ≠ ' '))
          ++ "\" = \"".toList ++ ["Hello".toList].getD 0 [] ++ "\";\n".toList))
      ∧ ReplaceAll " h i".toList " ".toList [] = " h i".toList.filter (fun x => decide (x ≠ ' '))
      ∧ ' ' ∉ " h i".toList.filter (fun x => decide (x ≠ ' '))
      ∧ (∀ c, c ∈ " h i".toList.filter (fun x => decide (x ≠ ' ')) ↔
          c ∈ " h i".toList ∧ c ≠ ' ') :=
  emitted_key_space_free ",".toList " h i,Hello".toList " h i".toList ["Hello".toList] [[]]
    ["\"hi\" = \"Hello\";\n".toList] 0 [] (by decide) (by decide) (by decide) (by decide)

/-! ## A file without lines -/

theorem setupLanguageFiles_empty (delimiter : Str) (canCreate : Str → Bool)
    (opened : List Handle) (file : CsvFile) (h : file.lines = []) :
    (setupLanguageFiles delimiter canCreate opened file).exit
      = Exit.error (if file.readable then Err.emptyCSV else Err.io) := by
  unfold setupLanguageFiles
  cases file.readable with
  | false => rfl
  | true => simp [h]

theorem setupLanguageFiles_not_panic (delimiter : Str) (canCreate : Str → Bool)
    (opened : List Handle) (file : CsvFile) (hd : delimiter ≠ []) :
    (setupLanguageFiles delimiter canCreate opened file).exit ≠ Exit.panic := by
  unfold setupLanguageFiles
  cases file.readable with
  | false => simp
  | true =>
    simp only [if_true]
    cases hl : file.lines with
    | nil => simp
    | cons first more =>
      simp only []
      obtain ⟨p0, langs, hs⟩ := List.exists_cons_of_ne_nil (Split_ne_nil first delimiter hd)
      rw [hs]
      simp only []
      cases hc : createAll canCreate langs opened [] with
      | mk opened' r =>
        cases r with
        | none => simp
        | some ws => simp

/-- A readable file with a first line, a non-empty delimiter and outputs that can
all be created: `setupLanguageFiles` returns `nil`. -/
theorem setupLanguageFiles_ok (delimiter : Str) (canCreate : Str → Bool)
    (opened : List Handle) (file : CsvFile) (hd : delimiter ≠ [])
    (hread : file.readable = true) (hlines : file.lines ≠ [])
    (hcreate : ∀ l, canCreate l = true) :
    (setupLanguageFiles delimiter canCreate opened file).exit = Exit.ok := by
  unfold setupLanguageFiles
  rw [hread]
  simp only [if_true]
  obtain ⟨first, more, hl⟩ := List.exists_cons_of_ne_nil hlines
  rw [hl]
  simp only []
  obtain ⟨p0, langs, hs⟩ := List.exists_cons_of_ne_nil (Split_ne_nil first delimiter hd)
  rw [hs]
  simp only []
  obtain ⟨hs', _, h2⟩ := createAll_ok canCreate langs opened [] (fun l _ => hcreate l)
  rw [h2]

/-- The first walk over files one of which has no line does not return `nil`;
with a non-empty delimiter it returns an error. -/
theorem setupWalk_empty (delimiter : Str) (canCreate : Str → Bool) (files : List CsvFile)
    (empty : CsvFile) (hmem : empty ∈ files) (hlines : empty.lines = [])
    (langKeys : List Str) (allWrites opened : List Handle) :
    (setupWalk delimiter canCreate files langKeys allWrites opened).exit ≠ Exit.ok
      ∧ (delimiter ≠ [] →
          ∃ e, (setupWalk delimiter canCreate files langKeys allWrites opened).exit
            = Exit.error e)
      ∧ (delimiter ≠ [] → (∀ f ∈ files, f.readable = true) → (∀ l, canCreate l = true) →
          (setupWalk delimiter canCreate files langKeys allWrites opened).exit
            = Exit.error Err.emptyCSV) := by
  induction files generalizing langKeys allWrites opened with
  | nil => cases hmem
  | cons f files ih =>
    rw [setupWalk]
    cases he : (setupLanguageFiles delimiter canCreate opened f).exit with
    | ok =>
      have hne : empty ≠ f := by
        intro e
        rw [← e, setupLanguageFiles_empty _ _ _ _ hlines] at he
        cases he
      have hmem' : empty ∈ files := by
        rcases List.mem_cons.mp hmem with h | h
        · exact absurd h hne
        · exact h
      simp only []
      split_ifs
      · have := ih hmem' (setupLanguageFiles delimiter canCreate opened f).langKeys
          (setupLanguageFiles delimiter canCreate opened f).allWrites
          (setupLanguageFiles delimiter canCreate opened f).opened
        exact ⟨this.1, this.2.1, fun hd hr hc =>
          this.2.2 hd (fun g hg => hr g (List.mem_cons_of_mem _ hg)) hc⟩
      · have := ih hmem' langKeys allWrites
          (setupLanguageFiles delimiter canCreate opened f).opened
        exact ⟨this.1, this.2.1, fun hd hr hc =>
          this.2.2 hd (fun g hg => hr g (List.mem_cons_of_mem _ hg)) hc⟩
    | error e =>
      simp only []
      refine ⟨by simp, fun _ => ⟨e, rfl⟩, ?_⟩
      intro hd hr hc
      by_cases hf : f.lines = []
      · rw [setupLanguageFiles_empty _ _ _ _ hf, hr f (List.mem_cons_self _ _)] at he
        simp only [if_true, Exit.error.injEq] at he
        rw [← he]
      · rw [setupLanguageFiles_ok delimiter canCreate opened f hd
          (hr f (List.mem_cons_self _ _)) hf hc] at he
        cases he
    | panic =>
      simp only []
      refine ⟨by simp, ?_, ?_⟩
      · intro hd
        exact absurd he (setupLanguageFiles_not_panic delimiter canCreate opened f hd)
      · intro hd
        exact absurd he (setupLanguageFiles_not_panic delimiter canCreate opened f hd)

/-- When the first walk does not return `nil`, the run ends as the walk did and
the write phase is not entered: no text is written. -/
theorem generateIOSKeys_setup_failed (delimiter : Str) (canCreate : Str → Bool)
    (files : List CsvFile)
    (h : (setupWalk delimiter canCreate files [] [] []).exit ≠ Exit.ok) :
    (generateIOSKeys delimiter canCreate files).exit
        = (setupWalk delimiter canCreate files [] [] []).exit
      ∧ ∀ t ∈ (generateIOSKeys delimiter canCreate files).texts, t = [] := by
  unfold generateIOSKeys
  cases he : (setupWalk delimiter canCreate files [] [] []).exit with
  | ok => exact absurd he h
  | error e =>
    simp only []
    exact ⟨he, fun t ht => by
      obtain ⟨_, _, rfl⟩ := List.mem_map.mp ht
      rfl⟩
  | panic =>
    simp only []
    exact ⟨he, fun t ht => by
      obtain ⟨_, _, rfl⟩ := List.mem_map.mp ht
      rfl⟩

/-- C14 as stated fails with an empty delimiter: the first file has one line,
which is empty, so the header has no field and the slice `parts[1:]` panics
before the file without lines is reached; the run does not return an error. -/
theorem blank_header_counterexample :
    (∃ f ∈ blankThenEmptyCsvs, f.lines = [])
      ∧ Split [] [] = []
      ∧ (setupLanguageFiles [] (fun _ => true) [] ⟨"a.csv".toList, true, [[]], false⟩).exit
        = Exit.panic
      ∧ (generateIOSKeys [] (fun _ => true) blankThenEmptyCsvs).exit = Exit.panic
      ∧ ¬ ∃ e, (generateIOSKeys [] (fun _ => true) blankThenEmptyCsvs).exit = Exit.error e := by
  refine ⟨⟨⟨"b.csv".toList, true, [], false⟩, by simp [blankThenEmptyCsvs], rfl⟩,
    by decide, by decide, by decide, ?_⟩
  rintro ⟨e, he⟩
  have h : (generateIOSKeys [] (fun _ => true) blankThenEmptyCsvs).exit = Exit.panic := by
    decide
  rw [h] at he
  cases he

/-- C14, amended. When a file of the walk has no line, the run of
`generateIOSKeys` does not complete and writes nothing to any output; with a
non-empty delimiter it returns an error, the error of the empty file when every
file can be opened and every output created. With a non-empty delimiter a file
whose first line is present but empty is not treated as empty: its setup returns
`nil`, with no language. -/
theorem empty_file_fails_run (delimiter : Str) (canCreate : Str → Bool)
    (files : List CsvFile) (empty : CsvFile)
    (hmem : empty ∈ files) (hlines : empty.lines = []) :
    (generateIOSKeys delimiter canCreate files).exit ≠ Exit.ok
      ∧ (∀ t ∈ (generateIOSKeys delimiter canCreate files).texts, t = [])
      ∧ (delimiter ≠ [] →
          ∃ e, (generateIOSKeys delimiter canCreate files).exit = Exit.error e)
      ∧ (delimiter ≠ [] → (∀ f ∈ files, f.readable = true) → (∀ l, canCreate l = true) →
          (generateIOSKeys delimiter canCreate files).exit = Exit.error Err.emptyCSV)
      ∧ (delimiter ≠ [] → ∀ (name : Str) (more : List Str) (scanErr : Bool)
          (opened : List Handle),
          setupLanguageFiles delimiter canCreate opened ⟨name, true, [] :: more, scanErr⟩
            = ⟨opened, Exit.ok, [], []⟩) := by
  have hw := setupWalk_empty delimiter canCreate files empty hmem hlines [] [] []
  have hg := generateIOSKeys_setup_failed delimiter canCreate files hw.1
  refine ⟨by rw [hg.1]; exact hw.1, hg.2, fun hd => by rw [hg.1]; exact hw.2.1 hd,
    fun hd hr hc => by rw [hg.1]; exact hw.2.2 hd hr hc, ?_⟩
  intro hd name more scanErr opened
  have hs : Split [] delimiter = [[]] := by
    unfold Split
    rw [if_neg hd]
    rfl
  unfold setupLanguageFiles
  simp only [if_true, hs, createAll]

/-- The statement of `empty_file_fails_run` at a good file followed by a file
without lines, with the delimiter `,`. -/
theorem empty_file_fails_run_witness :
    (generateIOSKeys ",".toList (fun _ => true)
        [testCsv, ⟨"b.csv".toList, true, [], false⟩]).exit ≠ Exit.ok
      ∧ (∀ t ∈ (generateIOSKeys ",".toList (fun _ => true)
          [testCsv, ⟨"b.csv".toList, true, [], false⟩]).texts, t = [])
      ∧ (",".toList ≠ [] →
          ∃ e, (generateIOSKeys ",".toList (fun _ => true)
            [testCsv, ⟨"b.csv".toList, true, [], false⟩]).exit = Exit.error e)
      ∧ (",".toList ≠ [] →
          (∀ f ∈ [testCsv, ⟨"b.csv".toList, true, [], false⟩], f.readable = true) →
          (∀ l : Str, (fun (_ : Str) => true) l = true) →
          (generateIOSKeys ",".toList (fun _ => true)
            [testCsv, ⟨"b.csv".toList, true, [], false⟩]).exit = Exit.error Err.emptyCSV)
      ∧ (",".toList ≠ [] → ∀ (name : Str) (more : List Str) (scanErr : Bool)
          (opened : List Handle),
          setupLanguageFiles ",".toList (fun _ => true) opened
              ⟨name, true, [] :: more, scanErr⟩
            = ⟨opened, Exit.ok, [], []⟩) :=
  empty_file_fails_run ",".toList (fun _ => true)
    [testCsv, ⟨"b.csv".toList, true, [], false⟩] ⟨"b.csv".toList, true, [], false⟩
    (by simp) rfl

end IosCsv
